import Mathlib

/-!
Verification of the cell-level PRB scheduler in
`src/backend/network_layer/cell.py` (class `Cell`).

The scheduler's stages (lines 269-423 of `cell.py`) are embedded as pure
Lean functions over exact rationals: per-UE demands (`UEReq`, the output of
Stage 1, whose throughput model lives in `utils` outside this repository),
slice-weight normalization (`normWeights`, lines 306-310), the slice budget
partition (`sliceBudgets`, lines 317-327), per-slice proportional-fair
allocation with caps (`sliceAlloc`, lines 334-379), cross-slice leftover
redistribution (Stage 4, lines 381-416, which is the same floor-plus-
largest-remainder computation applied to per-UE rooms), and the final
per-UE result (`finalAlloc`).

Two statements in the Python function fault at runtime: the assignments to
`self.allocated_dl_prb` (lines 301 and 423) hit a read-only `@property`
of the same name (lines 64-71), and line 313 uses `collections.defaultdict`
although `collections` is never imported.  `allocate_prb_run` embeds the
control flow up to the first fault; the pure functions embed the data flow
the code specifies.

Cell state, registration/deregistration, the load properties and the MCS
selector are embedded separately (`CellState`, `deregister_ue`,
`current_load`, `select_mcs`).
-/

namespace RanSim

/-- Dictionary lookup with default, mirroring Python `d.get(k, default)`
(association lists stand in for `dict`s; keys are unique in every use). -/
def lookupD {α : Type} (l : List (Nat × α)) (k : Nat) (d : α) : α :=
  match l.find? (fun p => p.1 == k) with
  | some p => p.2
  | none => d

/-- Proportional share `B * (d / T)` as an exact rational
(cell.py line 363 / 399; Python evaluates it in floating point). -/
def shareQ (B T d : Nat) : ℚ :=
  (B : ℚ) * d / T

/-- Fractional remainder of a proportional share (line 367 / 403). -/
def fracOf (B T d : Nat) : ℚ :=
  shareQ B T d - ⌊shareQ B T d⌋

/-- One entry of the remainder list built at lines 359-367 / 395-403:
fractional remainder, UE id, (capped) desired demand, and the floor
allocation `min(floor(share), want)`. -/
structure Entry where
  frac : ℚ
  imsi : Nat
  want : Nat
  base : Nat
deriving DecidableEq, Repr

/-- Descending lexicographic comparison on `(frac, imsi, want)` used by
`remainders.sort(reverse=True)` (line 370 / 406); Python compares the
tuples `(share_f - b, imsi, want)`. -/
def entryGE (a b : Entry) : Bool :=
  decide (b.frac < a.frac) ||
    (decide (b.frac = a.frac) &&
      (decide (b.imsi < a.imsi) ||
        (decide (b.imsi = a.imsi) && decide (b.want ≤ a.want))))

/-- The leftover pass of lines 371-376 / 407-412: walk the sorted remainder
list handing one extra PRB to each entry still below its desired demand,
until the leftover budget runs out. -/
def handOut : Nat → List Entry → List (Nat × Nat)
  | _, [] => []
  | 0, e :: es => (e.imsi, e.base) :: handOut 0 es
  | Nat.succ L, e :: es =>
    if e.base < e.want then (e.imsi, e.base + 1) :: handOut L es
    else (e.imsi, e.base) :: handOut (Nat.succ L) es

/-- The remainder record of one `(imsi, desired)` pair (lines 362-367). -/
def mkEntry (B T : Nat) (p : Nat × Nat) : Entry where
  frac := fracOf B T p.2
  imsi := p.1
  want := p.2
  base := min (⌊shareQ B T p.2⌋).toNat p.2

/-- The remainder entries of lines 359-367, one per `(imsi, desired)` pair. -/
def sliceEntries (B T : Nat) (ues : List (Nat × Nat)) : List Entry :=
  ues.map (mkEntry B T)

/-- Per-slice allocation for budget `B` over `(imsi, desired)` pairs:
lines 345-379 of `allocate_prb` (also the Stage-4 computation of lines
393-412, which applies the identical branches to per-UE rooms with the
global leftover as budget). -/
def sliceAlloc (B : Nat) (ues : List (Nat × Nat)) : List (Nat × Nat) :=
  let T := (ues.map (·.2)).sum
  if T = 0 then ues.map (fun p => (p.1, 0))
  else if T ≤ B then ues
  else
    let entries := sliceEntries B T ues
    let used := (entries.map (·.base)).sum
    handOut (B - used) (List.insertionSort (fun a b => entryGE a b = true) entries)

/-- PRBs of a slice's budget that flow to the global leftover
(lines 347 and 355; an oversubscribed slice leaks nothing). -/
def sliceLeftover (B : Nat) (ues : List (Nat × Nat)) : Nat :=
  let T := (ues.map (·.2)).sum
  if T = 0 then B else if T ≤ B then B - T else 0

/-- Weight clamping and re-normalization of lines 306-310:
fall back to `{eMBB: 1.0}` for an empty mapping, clamp to `≥ 0`, divide by
the clamped sum unless that sum is zero (Python's `or 1.0`).  Slice names
are embedded as naturals (0 = eMBB, 1 = URLLC, 2 = mMTC). -/
def normWeights (weights : List (Nat × ℚ)) : List (Nat × ℚ) :=
  let w := if weights.isEmpty then [(0, 1)] else weights
  let ws0 := (w.map (fun p => max 0 p.2)).sum
  let ws := if ws0 = 0 then 1 else ws0
  w.map (fun p => (p.1, max 0 p.2 / ws))

/-- Descending comparison on `(remainder, slice)` used by the Stage-2 sort
(line 320). -/
def wGE (a b : ℚ × Nat) : Bool :=
  decide (b.1 < a.1) || (decide (b.1 = a.1) && decide (b.2 ≤ a.2))

/-- Stage-2 floored base budgets (line 319). -/
def stage2Base (budget : Nat) (nw : List (Nat × ℚ)) : List (Nat × Nat) :=
  nw.map (fun p => (p.1, (⌊(budget : ℚ) * p.2⌋).toNat))

/-- Stage-2 leftover after the floor pass (line 322). -/
def stage2Leftover (budget : Nat) (nw : List (Nat × ℚ)) : Nat :=
  budget - ((stage2Base budget nw).map (·.2)).sum

/-- Stage-2 remainder list, sorted descending (line 320). -/
def stage2Rems (budget : Nat) (nw : List (Nat × ℚ)) : List (ℚ × Nat) :=
  List.insertionSort (fun a b => wGE a b = true)
    (nw.map (fun p => ((budget : ℚ) * p.2 - ⌊(budget : ℚ) * p.2⌋, p.1)))

/-- The slices receiving one leftover PRB each (lines 323-327: the first
`leftover` entries of the sorted remainder list, one pass, no wrap). -/
def stage2Winners (budget : Nat) (nw : List (Nat × ℚ)) : List Nat :=
  ((stage2Rems budget nw).take (stage2Leftover budget nw)).map (·.2)

/-- Stage-2 slice budget partition (lines 317-327): floor of
`weight × budget` per slice, then one extra PRB to each of the
largest-remainder slices, one pass, no wrap-around. -/
def sliceBudgets (budget : Nat) (nw : List (Nat × ℚ)) : List (Nat × Nat) :=
  (stage2Base budget nw).map
    (fun p => if p.1 ∈ stage2Winners budget nw then (p.1, p.2 + 1) else p)

/-- One Stage-1 demand record (lines 290-294): UE id, slice tag, and the
PRB demand `want` derived from GBR and the MCS-based throughput (the
throughput model is in `utils`, outside this repository, so `want` is the
embedding's input). -/
structure UEReq where
  imsi : Nat
  sl : Nat
  want : Nat
deriving DecidableEq, Repr

/-- Capped desired demand `min(want, cap)` (line 343 / 388). -/
def desiredOf : Option Nat → Nat → Nat
  | none, w => w
  | some c, w => min w c

/-- Helper for `firstOcc`: keep elements not seen so far. -/
def firstOccAux (seen : List Nat) : List Nat → List Nat
  | [] => []
  | x :: xs => if x ∈ seen then firstOccAux seen xs else x :: firstOccAux (x :: seen) xs

/-- First occurrences, in order — the key order of the
`collections.defaultdict` grouping at lines 313-315. -/
def firstOcc (l : List Nat) : List Nat :=
  firstOccAux [] l

/-- The `(imsi, desired)` pairs of one slice, in requirement order
(lines 340-343). -/
def uesInSlice (cap : Option Nat) (reqs : List UEReq) (s : Nat) : List (Nat × Nat) :=
  (reqs.filter (fun r => r.sl == s)).map (fun r => (r.imsi, desiredOf cap r.want))

/-- A UE's downlink PRBs after Stage 3 (lines 329-379): the UE's slot in
its own slice's `sliceAlloc` result, zero for UEs without demand. -/
def ueAlloc3 (budget : Nat) (weights : List (Nat × ℚ)) (cap : Option Nat)
    (reqs : List UEReq) (i : Nat) : Nat :=
  match reqs.find? (fun r => r.imsi == i) with
  | none => 0
  | some r =>
    let sb := sliceBudgets budget (normWeights weights)
    lookupD (sliceAlloc (lookupD sb r.sl 0) (uesInSlice cap reqs r.sl)) i 0

/-- Global leftover accumulated across the slices that have demand records
(lines 332, 347, 355). -/
def globalLeftover (budget : Nat) (weights : List (Nat × ℚ)) (cap : Option Nat)
    (reqs : List UEReq) : Nat :=
  let sb := sliceBudgets budget (normWeights weights)
  ((firstOcc (reqs.map (·.sl))).map
    (fun s => sliceLeftover (lookupD sb s 0) (uesInSlice cap reqs s))).sum

/-- Stage-4 rooms `desired − already_allocated` per UE (lines 384-391). -/
def roomsList (budget : Nat) (weights : List (Nat × ℚ)) (cap : Option Nat)
    (reqs : List UEReq) : List (Nat × Nat) :=
  reqs.map (fun r => (r.imsi, desiredOf cap r.want - ueAlloc3 budget weights cap reqs r.imsi))

/-- A UE's final downlink PRB allocation after Stages 2-4 and the commit
(lines 304-423): Stage-3 share plus the Stage-4 redistribution share. -/
def finalAlloc (budget : Nat) (weights : List (Nat × ℚ)) (cap : Option Nat)
    (reqs : List UEReq) (i : Nat) : Nat :=
  ueAlloc3 budget weights cap reqs i +
    lookupD (sliceAlloc (globalLeftover budget weights cap reqs)
      (roomsList budget weights cap reqs)) i 0

/-! ### Generic list and lookup lemmas -/

theorem sum_map_add {α : Type} (l : List α) (f g : α → Nat) :
    (l.map (fun x => f x + g x)).sum = (l.map f).sum + (l.map g).sum := by
  induction l with
  | nil => rfl
  | cons a t ih => simp [ih]; omega

theorem lookupD_nil {α : Type} (k : Nat) (d : α) : lookupD [] k d = d := rfl

theorem lookupD_cons_self {α : Type} (k : Nat) (v : α) (l : List (Nat × α)) (d : α) :
    lookupD ((k, v) :: l) k d = v := by
  simp [lookupD, List.find?]

theorem lookupD_cons_ne {α : Type} {k a : Nat} (hne : a ≠ k) (v : α) (l : List (Nat × α)) (d : α) :
    lookupD ((a, v) :: l) k d = lookupD l k d := by
  simp [lookupD, List.find?_cons, hne]

/-- Summing a nodup-keyed association list through `lookupD` over its own
key list recovers the value sum. -/
theorem sum_lookup_self (res : List (Nat × Nat)) (h : (res.map (·.1)).Nodup) :
    ((res.map (·.1)).map (fun i => lookupD res i 0)).sum = (res.map (·.2)).sum := by
  induction res with
  | nil => rfl
  | cons p t ih =>
    obtain ⟨k, v⟩ := p
    simp only [List.map_cons, List.nodup_cons] at h ⊢
    rw [List.sum_cons, List.sum_cons, lookupD_cons_self]
    congr 1
    rw [List.map_congr_left, ih h.2]
    intro i hi
    have : i ≠ k := fun hik => h.1 (hik ▸ hi)
    exact lookupD_cons_ne (Ne.symm this) v t 0

theorem sum_lookup_perm (res : List (Nat × Nat)) (K : List Nat)
    (hK : K.Perm (res.map (·.1))) (h : (res.map (·.1)).Nodup) :
    (K.map (fun i => lookupD res i 0)).sum = (res.map (·.2)).sum := by
  rw [(hK.map (fun i => lookupD res i 0)).sum_eq, sum_lookup_self res h]

/-- Looking a nodup key list up in any association list is bounded by the
value sum (values are naturals). -/
theorem sum_lookup_le (m : List (Nat × Nat)) : ∀ (K : List Nat), K.Nodup →
    (K.map (fun k => lookupD m k 0)).sum ≤ (m.map (·.2)).sum := by
  induction m with
  | nil =>
    intro K _
    have : ∀ k ∈ K, lookupD ([] : List (Nat × Nat)) k 0 = 0 := fun k _ => rfl
    rw [List.map_congr_left this]
    simp
  | cons p t ih =>
    obtain ⟨a, v⟩ := p
    intro K hK
    by_cases ha : a ∈ K
    · have hperm : K.Perm (a :: K.erase a) := List.perm_cons_erase ha
      rw [(hperm.map (fun k => lookupD ((a, v) :: t) k 0)).sum_eq]
      rw [List.map_cons, List.sum_cons, lookupD_cons_self]
      have herase : ∀ k ∈ K.erase a, lookupD ((a, v) :: t) k 0 = lookupD t k 0 := by
        intro k hk
        have hne : k ≠ a := ((List.Nodup.mem_erase_iff hK).mp hk).1
        exact lookupD_cons_ne (Ne.symm hne) v t 0
      rw [List.map_congr_left herase]
      simp only [List.map_cons, List.sum_cons]
      exact Nat.add_le_add_left (ih (K.erase a) (hK.erase a)) v
    · have hne : ∀ k ∈ K, lookupD ((a, v) :: t) k 0 = lookupD t k 0 := by
        intro k hk
        have : a ≠ k := fun h => ha (h ▸ hk)
        exact lookupD_cons_ne this v t 0
      rw [List.map_congr_left hne]
      simp only [List.map_cons, List.sum_cons]
      exact le_add_self.trans (Nat.add_le_add_left (ih K hK) v)

/-- A `lookupD` miss on every key yields the default. -/
theorem lookupD_eq_of_not_mem {α : Type} (l : List (Nat × α)) (k : Nat) (d : α)
    (h : k ∉ l.map (·.1)) : lookupD l k d = d := by
  induction l with
  | nil => rfl
  | cons p t ih =>
    simp only [List.map_cons, List.mem_cons] at h
    push_neg at h
    rw [lookupD_cons_ne (fun he => h.1 he.symm) _ _ _]
    · exact ih h.2

/-- In a nodup-keyed association list a present pair is what lookup finds. -/
theorem lookupD_eq_of_mem {α : Type} (l : List (Nat × α)) (k : Nat) (v : α) (d : α)
    (hn : (l.map (·.1)).Nodup) (hm : (k, v) ∈ l) : lookupD l k d = v := by
  induction l with
  | nil => cases hm
  | cons p t ih =>
    obtain ⟨a, w⟩ := p
    simp only [List.map_cons, List.nodup_cons] at hn
    rcases List.mem_cons.mp hm with h | h
    · obtain ⟨h1, h2⟩ := Prod.mk.injEq .. ▸ h
      cases h
      exact lookupD_cons_self k v t d
    · have hka : k ≠ a := by
        intro he
        exact hn.1 (he ▸ (List.mem_map.mpr ⟨(k, v), h, rfl⟩))
      rw [lookupD_cons_ne (Ne.symm hka) w t d]
      exact ih hn.2 h

/-- `find?` on a nodup-keyed list at a member's key returns that member. -/
theorem find?_key_of_mem {α : Type} (key : α → Nat) :
    ∀ (l : List α), (l.map key).Nodup → ∀ a ∈ l,
      l.find? (fun x => key x == key a) = some a := by
  intro l
  induction l with
  | nil => intro _ a ha; cases ha
  | cons b t ih =>
    intro hn a ha
    simp only [List.map_cons, List.nodup_cons] at hn
    rcases List.mem_cons.mp ha with h | h
    · cases h
      simp [List.find?_cons]
    · have hne : key b ≠ key a := by
        intro he
        exact hn.1 (he ▸ (List.mem_map.mpr ⟨a, h, rfl⟩))
      rw [List.find?_cons_of_neg _ (by simpa using hne)]
      exact ih hn.2 a h

/-- Sums of naturals over sublists are monotone. -/
theorem sublist_sum_le {l₁ l₂ : List Nat} (h : l₁.Sublist l₂) : l₁.sum ≤ l₂.sum := by
  induction h with
  | slnil => exact Nat.le_refl 0
  | cons a _ ih => simp only [List.sum_cons]; omega
  | cons₂ a _ ih => simp only [List.sum_cons]; omega

theorem subperm_sum_le {l₁ l₂ : List Nat} (h : l₁.Subperm l₂) : l₁.sum ≤ l₂.sum := by
  obtain ⟨l, hperm, hsub⟩ := h
  exact hperm.sum_eq ▸ sublist_sum_le hsub

/-! ### Rational arithmetic lemmas for floor-plus-largest-remainder -/

theorem sum_floor_le (l : List ℚ) : (l.map (fun q => ⌊q⌋)).sum ≤ ⌊l.sum⌋ := by
  induction l with
  | nil => simp
  | cons a t ih =>
    simp only [List.map_cons, List.sum_cons]
    calc ⌊a⌋ + (t.map (fun q => ⌊q⌋)).sum ≤ ⌊a⌋ + ⌊t.sum⌋ := by omega
    _ ≤ ⌊a + t.sum⌋ := by
        rw [Int.le_floor]
        push_cast
        exact add_le_add (Int.floor_le a) (Int.floor_le t.sum)

theorem sum_map_div {α : Type} (l : List α) (f : α → ℚ) (T : ℚ) :
    (l.map (fun x => f x / T)).sum = (l.map f).sum / T := by
  induction l with
  | nil => simp
  | cons a t ih => simp only [List.map_cons, List.sum_cons, ih, add_div]

theorem sum_map_mul_cast (B : Nat) (l : List (Nat × Nat)) :
    (l.map (fun p => ((B : ℚ) * p.2))).sum = (B : ℚ) * (((l.map (·.2)).sum : Nat) : ℚ) := by
  induction l with
  | nil => simp
  | cons a t ih =>
    simp only [List.map_cons, List.sum_cons, ih]
    push_cast
    ring

/-- The shares `B * d / T` of one slice sum to exactly `B` when the `d`
sum to `T ≠ 0`. -/
theorem sum_shareQ (B T : Nat) (l : List (Nat × Nat))
    (hT : (l.map (·.2)).sum = T) (hT0 : T ≠ 0) :
    (l.map (fun p => shareQ B T p.2)).sum = (B : ℚ) := by
  have h1 : (l.map (fun p => shareQ B T p.2)).sum
      = (l.map (fun p => ((B : ℚ) * p.2))).sum / (T : ℚ) := by
    rw [← sum_map_div]
    rfl
  rw [h1, sum_map_mul_cast, hT]
  rw [mul_div_assoc, div_self (by exact_mod_cast hT0), mul_one]

theorem shareQ_nonneg (B T d : Nat) : 0 ≤ shareQ B T d := by
  unfold shareQ
  positivity

theorem floor_shareQ_nonneg (B T d : Nat) : 0 ≤ ⌊shareQ B T d⌋ :=
  Int.floor_nonneg.mpr (shareQ_nonneg B T d)

/-- `B*d/T ≤ d` whenever `B ≤ T` (with `T ≠ 0`). -/
theorem shareQ_le_self {B T : Nat} (d : Nat) (hBT : B ≤ T) (hT0 : T ≠ 0) :
    shareQ B T d ≤ (d : Nat) := by
  unfold shareQ
  rw [div_le_iff₀ (by positivity)]
  have : (B : ℚ) * d ≤ (T : ℚ) * d := by
    have : (B : ℚ) ≤ T := by exact_mod_cast hBT
    exact mul_le_mul_of_nonneg_right this (by positivity)
  calc (B : ℚ) * d ≤ (T : ℚ) * d := this
  _ = (d : ℚ) * T := by ring

/-- `B*d/T < d` strictly when `B < T` and `0 < d`. -/
theorem shareQ_lt_self {B T d : Nat} (hBT : B < T) (hd : 0 < d) :
    shareQ B T d < (d : Nat) := by
  have hT : 0 < T := Nat.lt_of_le_of_lt (Nat.zero_le B) hBT
  unfold shareQ
  rw [div_lt_iff₀ (by exact_mod_cast hT)]
  have h1 : (B : ℚ) < T := by exact_mod_cast hBT
  have h2 : (0 : ℚ) < d := by exact_mod_cast hd
  calc (B : ℚ) * d < (T : ℚ) * d := by exact mul_lt_mul_of_pos_right h1 h2
  _ = (d : ℚ) * T := by ring

theorem fracOf_nonneg (B T d : Nat) : 0 ≤ fracOf B T d := by
  unfold fracOf
  have := Int.floor_le (shareQ B T d)
  linarith

theorem fracOf_lt_one (B T d : Nat) : fracOf B T d < 1 := by
  unfold fracOf
  have := Int.lt_floor_add_one (shareQ B T d)
  push_cast at this ⊢
  linarith

theorem fracOf_zero (B T : Nat) : fracOf B T 0 = 0 := by
  unfold fracOf shareQ
  norm_num

/-- A list of rationals, each `≤ 1`, sums to at most its length. -/
theorem sum_le_length (l : List ℚ) (h : ∀ x ∈ l, x ≤ 1) : l.sum ≤ l.length := by
  induction l with
  | nil => simp
  | cons a t ih =>
    simp only [List.sum_cons, List.length_cons]
    have ha : a ≤ 1 := h a (List.mem_cons_self a t)
    have ht : t.sum ≤ t.length := ih (fun x hx => h x (List.mem_cons_of_mem a hx))
    push_cast
    linarith

/-- A list of rationals, each `< 1`, nonempty, sums to strictly less than
its length. -/
theorem sum_lt_length (l : List ℚ) (h : ∀ x ∈ l, x < 1) (hne : l ≠ []) :
    l.sum < l.length := by
  cases l with
  | nil => exact absurd rfl hne
  | cons a t =>
    simp only [List.sum_cons, List.length_cons]
    have ha : a < 1 := h a (List.mem_cons_self a t)
    have ht : t.sum ≤ t.length :=
      sum_le_length t (fun x hx => le_of_lt (h x (List.mem_cons_of_mem a hx)))
    push_cast
    linarith

/-! ### Properties of the leftover pass `handOut` -/

theorem handOut_zero : ∀ (es : List Entry),
    handOut 0 es = es.map (fun e => (e.imsi, e.base)) := by
  intro es
  induction es with
  | nil => rfl
  | cons e t ih => simp [handOut, ih]

theorem handOut_keys : ∀ (L : Nat) (es : List Entry),
    (handOut L es).map (·.1) = es.map (·.imsi) := by
  intro L es
  induction es generalizing L with
  | nil => simp [handOut]
  | cons e t ih =>
    cases L with
    | zero => simp [handOut, ih]
    | succ L =>
      by_cases h : e.base < e.want
      · simp [handOut, h, ih]
      · simp [handOut, h, ih]

theorem handOut_zero_values (es : List Entry) :
    ((handOut 0 es).map (·.2)).sum = (es.map (·.base)).sum := by
  rw [handOut_zero, List.map_map]
  rfl

theorem handOut_sum_le : ∀ (L : Nat) (es : List Entry),
    ((handOut L es).map (·.2)).sum ≤ (es.map (·.base)).sum + L := by
  intro L es
  induction es generalizing L with
  | nil => simp [handOut]
  | cons e t ih =>
    cases L with
    | zero =>
      rw [handOut_zero_values]
      omega
    | succ L =>
      by_cases h : e.base < e.want
      · simp only [handOut, if_pos h, List.map_cons, List.sum_cons]
        have := ih L
        omega
      · simp only [handOut, if_neg h, List.map_cons, List.sum_cons]
        have := ih (Nat.succ L)
        omega

theorem handOut_sum_eq : ∀ (L : Nat) (es : List Entry),
    L ≤ (es.filter (fun e => decide (e.base < e.want))).length →
    ((handOut L es).map (·.2)).sum = (es.map (·.base)).sum + L := by
  intro L es
  induction es generalizing L with
  | nil =>
    intro h
    simp only [List.filter_nil, List.length_nil, Nat.le_zero] at h
    subst h
    rfl
  | cons e t ih =>
    intro h
    cases L with
    | zero =>
      rw [handOut_zero_values]
      omega
    | succ L =>
      by_cases he : e.base < e.want
      · rw [List.filter_cons_of_pos (by simpa using he), List.length_cons] at h
        simp only [handOut, if_pos he, List.map_cons, List.sum_cons]
        rw [ih L (by omega)]
        omega
      · rw [List.filter_cons_of_neg (by simpa using he)] at h
        simp only [handOut, if_neg he, List.map_cons, List.sum_cons]
        rw [ih (Nat.succ L) h]
        omega

theorem handOut_mem : ∀ (L : Nat) (es : List Entry),
    (∀ e ∈ es, e.base ≤ e.want) →
    ∀ p ∈ handOut L es, ∃ e ∈ es, e.imsi = p.1 ∧ e.base ≤ p.2 ∧ p.2 ≤ e.want := by
  intro L es
  induction es generalizing L with
  | nil => intro _ p hp; simp [handOut] at hp
  | cons e t ih =>
    intro hb p hp
    have hbt : ∀ x ∈ t, x.base ≤ x.want := fun x hx => hb x (List.mem_cons_of_mem e hx)
    cases L with
    | zero =>
      rw [handOut_zero] at hp
      rcases List.mem_map.mp hp with ⟨x, hx, hxe⟩
      exact ⟨x, hx, by rw [← hxe], by rw [← hxe], by rw [← hxe]; exact hb x hx⟩
    | succ L =>
      by_cases he : e.base < e.want
      · simp only [handOut, if_pos he] at hp
        rcases List.mem_cons.mp hp with h | h
        · subst h
          exact ⟨e, List.mem_cons_self e t, rfl, by omega, by omega⟩
        · rcases ih L hbt p h with ⟨x, hx, h1, h2, h3⟩
          exact ⟨x, List.mem_cons_of_mem e hx, h1, h2, h3⟩
      · simp only [handOut, if_neg he] at hp
        rcases List.mem_cons.mp hp with h | h
        · subst h
          exact ⟨e, List.mem_cons_self e t, rfl, Nat.le_refl _, hb e (List.mem_cons_self e t)⟩
        · rcases ih (Nat.succ L) hbt p h with ⟨x, hx, h1, h2, h3⟩
          exact ⟨x, List.mem_cons_of_mem e hx, h1, h2, h3⟩

/-! ### Properties of the per-slice allocation `sliceAlloc` -/

theorem sliceAlloc_eq_zero {B : Nat} {ues : List (Nat × Nat)}
    (h : (ues.map (·.2)).sum = 0) :
    sliceAlloc B ues = ues.map (fun p => (p.1, 0)) := by
  simp only [sliceAlloc]
  rw [if_pos h]

theorem sliceAlloc_eq_under {B : Nat} {ues : List (Nat × Nat)}
    (h0 : (ues.map (·.2)).sum ≠ 0) (h1 : (ues.map (·.2)).sum ≤ B) :
    sliceAlloc B ues = ues := by
  simp only [sliceAlloc]
  rw [if_neg h0, if_pos h1]

theorem sliceAlloc_eq_over {B : Nat} {ues : List (Nat × Nat)}
    (h0 : (ues.map (·.2)).sum ≠ 0) (h1 : ¬ (ues.map (·.2)).sum ≤ B) :
    sliceAlloc B ues =
      handOut (B - ((sliceEntries B ((ues.map (·.2)).sum) ues).map (·.base)).sum)
        (List.insertionSort (fun a b => entryGE a b = true)
          (sliceEntries B ((ues.map (·.2)).sum) ues)) := by
  simp only [sliceAlloc]
  rw [if_neg h0, if_neg h1]

theorem sliceEntries_base_le_want (B T : Nat) (ues : List (Nat × Nat)) :
    ∀ e ∈ sliceEntries B T ues, e.base ≤ e.want := by
  intro e he
  rcases List.mem_map.mp he with ⟨p, _, hpe⟩
  rw [← hpe]
  exact Nat.min_le_right _ _

theorem sliceEntries_keys (B T : Nat) (ues : List (Nat × Nat)) :
    (sliceEntries B T ues).map (·.imsi) = ues.map (·.1) := by
  unfold sliceEntries
  rw [List.map_map]
  rfl

/-- The floor allocations of one slice consume at most the budget. -/
theorem sliceEntries_used_le (B T : Nat) (ues : List (Nat × Nat))
    (hT : (ues.map (·.2)).sum = T) (hT0 : T ≠ 0) :
    ((sliceEntries B T ues).map (·.base)).sum ≤ B := by
  have h1 : ((sliceEntries B T ues).map (·.base)).sum
      ≤ (ues.map (fun p => (⌊shareQ B T p.2⌋).toNat)).sum := by
    unfold sliceEntries
    rw [List.map_map]
    exact List.sum_le_sum (fun p _ => Nat.min_le_left _ _)
  have h2 : ((ues.map (fun p => (⌊shareQ B T p.2⌋).toNat)).sum : ℤ) ≤ (B : ℤ) := by
    rw [Nat.cast_list_sum, List.map_map]
    have hc : (ues.map (fun p => ((⌊shareQ B T p.2⌋).toNat : ℤ))).sum
        = (ues.map (fun p => ⌊shareQ B T p.2⌋)).sum := by
      apply congrArg
      apply List.map_congr_left
      intro p _
      exact Int.toNat_of_nonneg (floor_shareQ_nonneg B T p.2)
    have hf : (ues.map (fun p => ⌊shareQ B T p.2⌋)).sum
        ≤ ⌊(ues.map (fun p => shareQ B T p.2)).sum⌋ := by
      have := sum_floor_le (ues.map (fun p => shareQ B T p.2))
      rwa [List.map_map] at this
    have hs : (ues.map (fun p => shareQ B T p.2)).sum = (B : ℚ) := sum_shareQ B T ues hT hT0
    have hgoal : (ues.map (fun p => ((⌊shareQ B T p.2⌋).toNat : ℤ))).sum ≤ (B : ℤ) := by
      rw [hc]
      calc (ues.map (fun p => ⌊shareQ B T p.2⌋)).sum
          ≤ ⌊(ues.map (fun p => shareQ B T p.2)).sum⌋ := hf
        _ = ⌊(B : ℚ)⌋ := by rw [hs]
        _ = (B : ℤ) := Int.floor_natCast B
    exact hgoal
  omega

theorem sliceAlloc_keys (B : Nat) (ues : List (Nat × Nat)) :
    ((sliceAlloc B ues).map (·.1)).Perm (ues.map (·.1)) := by
  by_cases h0 : (ues.map (·.2)).sum = 0
  · rw [sliceAlloc_eq_zero h0, List.map_map]
    exact List.Perm.refl _
  · by_cases h1 : (ues.map (·.2)).sum ≤ B
    · rw [sliceAlloc_eq_under h0 h1]
    · rw [sliceAlloc_eq_over h0 h1, handOut_keys]
      have hsorted := List.perm_insertionSort (fun a b => entryGE a b = true)
        (sliceEntries B ((ues.map (·.2)).sum) ues)
      have := hsorted.map (·.imsi)
      rwa [sliceEntries_keys] at this

/-- The per-slice allocation never exceeds the slice budget. -/
theorem sliceAlloc_sum_le (B : Nat) (ues : List (Nat × Nat)) :
    ((sliceAlloc B ues).map (·.2)).sum ≤ B := by
  by_cases h0 : (ues.map (·.2)).sum = 0
  · rw [sliceAlloc_eq_zero h0, List.map_map]
    have hz : ((fun x : Nat × Nat => x.2) ∘ fun p : Nat × Nat => (p.1, 0))
        = fun _ : Nat × Nat => 0 := rfl
    rw [hz]
    simp
  · by_cases h1 : (ues.map (·.2)).sum ≤ B
    · rw [sliceAlloc_eq_under h0 h1]
      exact h1
    · rw [sliceAlloc_eq_over h0 h1]
      have hused : ((sliceEntries B ((ues.map (·.2)).sum) ues).map (·.base)).sum ≤ B :=
        sliceEntries_used_le B _ ues rfl h0
      have hperm : ((List.insertionSort (fun a b => entryGE a b = true)
            (sliceEntries B ((ues.map (·.2)).sum) ues)).map (·.base)).sum
          = ((sliceEntries B ((ues.map (·.2)).sum) ues).map (·.base)).sum :=
        ((List.perm_insertionSort (fun a b => entryGE a b = true)
          (sliceEntries B ((ues.map (·.2)).sum) ues)).map (fun e : Entry => e.base)).sum_eq
      have hle := handOut_sum_le
        (B - ((sliceEntries B ((ues.map (·.2)).sum) ues).map (·.base)).sum)
        (List.insertionSort (fun a b => entryGE a b = true)
          (sliceEntries B ((ues.map (·.2)).sum) ues))
      rw [hperm] at hle
      omega

/-- Everything granted by the per-slice allocation stays within the
corresponding UE desired demand. -/
theorem sliceAlloc_mem_le (B : Nat) (ues : List (Nat × Nat)) :
    ∀ p ∈ sliceAlloc B ues, ∃ q ∈ ues, q.1 = p.1 ∧ p.2 ≤ q.2 := by
  by_cases h0 : (ues.map (·.2)).sum = 0
  · rw [sliceAlloc_eq_zero h0]
    intro p hp
    rcases List.mem_map.mp hp with ⟨q, hq, hqp⟩
    exact ⟨q, hq, by rw [← hqp], by rw [← hqp]; exact Nat.zero_le _⟩
  · by_cases h1 : (ues.map (·.2)).sum ≤ B
    · rw [sliceAlloc_eq_under h0 h1]
      intro p hp
      exact ⟨p, hp, rfl, Nat.le_refl _⟩
    · rw [sliceAlloc_eq_over h0 h1]
      intro p hp
      have hble : ∀ e ∈ List.insertionSort (fun a b => entryGE a b = true)
          (sliceEntries B ((ues.map (·.2)).sum) ues), e.base ≤ e.want := by
        intro e he
        exact sliceEntries_base_le_want B _ ues e
          ((List.perm_insertionSort _ _).mem_iff.mp he)
      rcases handOut_mem _ _ hble p hp with ⟨e, he, h1e, _, h3e⟩
      have hees : e ∈ sliceEntries B ((ues.map (·.2)).sum) ues :=
        (List.perm_insertionSort _ _).mem_iff.mp he
      rcases List.mem_map.mp hees with ⟨q, hq, hqe⟩
      refine ⟨q, hq, ?_, ?_⟩
      · rw [← h1e, ← hqe]
        rfl
      · rw [← hqe] at h3e
        exact h3e

theorem sum_map_sub {α : Type} (l : List α) (f g : α → ℚ) :
    (l.map (fun x => f x - g x)).sum = (l.map f).sum - (l.map g).sum := by
  induction l with
  | nil => simp
  | cons a t ih =>
    simp only [List.map_cons, List.sum_cons, ih]
    ring

/-- In an oversubscribed slice (`B < T`) every floor allocation is the
floor itself: the `min` with the desired demand never bites. -/
theorem sliceEntries_base_eq {B T : Nat} (ues : List (Nat × Nat))
    (hBT : B ≤ T) (hT0 : T ≠ 0) :
    (sliceEntries B T ues).map (·.base) = ues.map (fun p => (⌊shareQ B T p.2⌋).toNat) := by
  unfold sliceEntries
  rw [List.map_map]
  apply List.map_congr_left
  intro p _
  have hle : shareQ B T p.2 ≤ ((p.2 : Nat) : ℚ) := shareQ_le_self p.2 hBT hT0
  have h1 : ⌊shareQ B T p.2⌋ ≤ (p.2 : ℤ) := by
    have h := Int.floor_le_floor hle
    rwa [Int.floor_natCast] at h
  show min (⌊shareQ B T p.2⌋).toNat p.2 = (⌊shareQ B T p.2⌋).toNat
  exact Nat.min_eq_left (by omega)

/-- With a strictly oversubscribed slice, a UE with positive desired
demand keeps strict headroom above its floor allocation. -/
theorem base_lt_want_of_pos {B T d : Nat} (hlt : B < T) (hd : 0 < d) :
    min (⌊shareQ B T d⌋).toNat d < d := by
  have hshare : shareQ B T d < ((d : Nat) : ℚ) := shareQ_lt_self hlt hd
  have hfl : ⌊shareQ B T d⌋ < (d : ℤ) := by
    apply Int.floor_lt.mpr
    push_cast
    exact_mod_cast hshare
  omega

/-- Cast of the floor-allocation sum to ℚ. -/
theorem used_cast_eq (B T : Nat) (ues : List (Nat × Nat)) :
    (((ues.map (fun p => (⌊shareQ B T p.2⌋).toNat)).sum : Nat) : ℚ)
      = (ues.map (fun p => ((⌊shareQ B T p.2⌋ : ℤ) : ℚ))).sum := by
  rw [Nat.cast_list_sum, List.map_map]
  apply congrArg
  apply List.map_congr_left
  intro p _
  show (((⌊shareQ B T p.2⌋).toNat : ℤ) : ℚ) = ((⌊shareQ B T p.2⌋ : ℤ) : ℚ)
  rw [Int.toNat_of_nonneg (floor_shareQ_nonneg B T p.2)]

/-- When demand meets or exceeds a positive budget, the per-slice
allocation consumes the budget exactly. -/
theorem sliceAlloc_sum_eq (B : Nat) (ues : List (Nat × Nat))
    (hB : 0 < B) (hBT : B ≤ (ues.map (·.2)).sum) :
    ((sliceAlloc B ues).map (·.2)).sum = B := by
  by_cases h0 : (ues.map (·.2)).sum = 0
  · omega
  · by_cases h1 : (ues.map (·.2)).sum ≤ B
    · rw [sliceAlloc_eq_under h0 h1]
      omega
    · rw [sliceAlloc_eq_over h0 h1]
      have hlt : B < (ues.map (·.2)).sum := Nat.lt_of_not_le h1
      set T := (ues.map (·.2)).sum with hTdef
      set es := sliceEntries B T ues with hesdef
      set used := (es.map (·.base)).sum with husdef
      have hused : used ≤ B := sliceEntries_used_le B T ues rfl h0
      have hbase := sliceEntries_base_eq (B := B) (T := T) ues (Nat.le_of_lt hlt) h0
      have husedQ : ((used : Nat) : ℚ)
          = (ues.map (fun p => ((⌊shareQ B T p.2⌋ : ℤ) : ℚ))).sum := by
        rw [husdef, hbase]
        exact used_cast_eq B T ues
      have hfrac_sum : (es.map (·.frac)).sum = (B : ℚ) - used := by
        have hmap : es.map (·.frac) = ues.map (fun p => fracOf B T p.2) := by
          rw [hesdef]
          unfold sliceEntries
          rw [List.map_map]
          rfl
        have hsub : (ues.map (fun p => fracOf B T p.2)).sum
            = (ues.map (fun p => shareQ B T p.2)).sum
              - (ues.map (fun p => ((⌊shareQ B T p.2⌋ : ℤ) : ℚ))).sum := by
          rw [← sum_map_sub]
          rfl
        rw [hmap, hsub, sum_shareQ B T ues rfl h0, ← husedQ]
      -- entries that are not eligible for a remainder PRB have zero demand,
      -- hence zero fractional part
      have hwant0 : ∀ e ∈ es, ¬ e.base < e.want → e.frac = 0 := by
        intro e he hnot
        rcases List.mem_map.mp (hesdef ▸ he) with ⟨p, hp, hpe⟩
        have hz : p.2 = 0 := by
          by_contra hw
          apply hnot
          rw [← hpe]
          exact base_lt_want_of_pos hlt (Nat.pos_of_ne_zero hw)
        rw [← hpe]
        show fracOf B T p.2 = 0
        rw [hz]
        exact fracOf_zero B T
      have hzero : ((es.filter (fun e => ! decide (e.base < e.want))).map (·.frac)).sum = 0 := by
        apply List.sum_eq_zero
        intro x hx
        rcases List.mem_map.mp hx with ⟨e, he, hef⟩
        have hmem := List.mem_filter.mp he
        have hnot : ¬ e.base < e.want := by simpa using hmem.2
        rw [← hef]
        exact hwant0 e hmem.1 hnot
      have hfrac_elig : (es.map (·.frac)).sum
          = ((es.filter (fun e => decide (e.base < e.want))).map (·.frac)).sum := by
        have hsplit := List.filter_append_perm (fun e => decide (e.base < e.want)) es
        have hsum := (hsplit.map (fun e : Entry => e.frac)).sum_eq
        rw [List.map_append, List.sum_append] at hsum
        rw [← hsum, hzero, add_zero]
      -- the eligible set is nonempty and each fractional part is < 1
      have hne : es.filter (fun e => decide (e.base < e.want)) ≠ [] := by
        have hex : ∃ p ∈ ues, p.2 ≠ 0 := by
          by_contra hall
          push_neg at hall
          exact h0 (List.sum_eq_zero (fun x hx => by
            rcases List.mem_map.mp hx with ⟨p, hp, hpx⟩
            rw [← hpx]
            exact hall p hp))
        rcases hex with ⟨p, hp, hw⟩
        have hmem : mkEntry B T p ∈ es := by
          rw [hesdef]
          exact List.mem_map.mpr ⟨p, hp, rfl⟩
        intro hnil
        have hmf : mkEntry B T p ∈ es.filter (fun e => decide (e.base < e.want)) := by
          apply List.mem_filter.mpr
          refine ⟨hmem, ?_⟩
          simp only [decide_eq_true_eq]
          show min (⌊shareQ B T p.2⌋).toNat p.2 < p.2
          exact base_lt_want_of_pos hlt (Nat.pos_of_ne_zero hw)
        rw [hnil] at hmf
        cases hmf
      have hlt1 : ((B - used : Nat) : ℚ)
          < (((es.filter (fun e => decide (e.base < e.want))).length : Nat) : ℚ) := by
        have hcast : ((B - used : Nat) : ℚ) = (B : ℚ) - used := by
          push_cast [Nat.cast_sub hused]
          ring
        rw [hcast, ← hfrac_sum, hfrac_elig]
        have := sum_lt_length
          ((es.filter (fun e => decide (e.base < e.want))).map (·.frac))
          (by
            intro x hx
            rcases List.mem_map.mp hx with ⟨e, he, hef⟩
            rcases List.mem_map.mp (hesdef ▸ (List.mem_filter.mp he).1) with ⟨p, hp, hpe⟩
            rw [← hef, ← hpe]
            exact fracOf_lt_one B T p.2)
          (by
            intro hmapnil
            exact hne (List.map_eq_nil_iff.mp hmapnil))
        rwa [List.length_map] at this
      have hLE : B - used ≤ ((List.insertionSort (fun a b => entryGE a b = true) es).filter
          (fun e => decide (e.base < e.want))).length := by
        have hperm := (List.perm_insertionSort (fun a b => entryGE a b = true) es).filter
          (fun e => decide (e.base < e.want))
        rw [hperm.length_eq]
        have hnat : B - used < (es.filter (fun e => decide (e.base < e.want))).length := by
          exact_mod_cast hlt1
        omega
      rw [handOut_sum_eq (B - used) _ hLE]
      have hpermb : ((List.insertionSort (fun a b => entryGE a b = true) es).map
          (fun e : Entry => e.base)).sum = used :=
        ((List.perm_insertionSort (fun a b => entryGE a b = true) es).map
          (fun e : Entry => e.base)).sum_eq
      rw [hpermb]
      omega

/-! ### Lookup corollaries and the slice partition of the UE list -/

theorem pair_unique_of_nodup {α : Type} (l : List (Nat × α))
    (hn : (l.map (·.1)).Nodup) {k : Nat} {a b : α}
    (ha : (k, a) ∈ l) (hb : (k, b) ∈ l) : a = b := by
  have h1 := lookupD_eq_of_mem l k a a hn ha
  have h2 := lookupD_eq_of_mem l k b a hn hb
  exact h1.symm.trans h2

theorem lookupD_sliceAlloc_le (B : Nat) (ues : List (Nat × Nat))
    (hn : (ues.map (·.1)).Nodup) {k d : Nat} (hmem : (k, d) ∈ ues) :
    lookupD (sliceAlloc B ues) k 0 ≤ d := by
  cases hfind : (sliceAlloc B ues).find? (fun p => p.1 == k) with
  | none =>
    unfold lookupD
    rw [hfind]
    exact Nat.zero_le d
  | some p =>
    have hval : lookupD (sliceAlloc B ues) k 0 = p.2 := by
      unfold lookupD
      rw [hfind]
    have hpmem : p ∈ sliceAlloc B ues := List.mem_of_find?_eq_some hfind
    have hpk : p.1 = k := by
      have := List.find?_some hfind
      simpa using this
    rcases sliceAlloc_mem_le B ues p hpmem with ⟨q, hq, hqk, hle⟩
    have hq1 : q.1 = k := hqk.trans hpk
    have hqpair : (k, q.2) ∈ ues := by
      rw [← hq1]
      exact hq
    have : q.2 = d := pair_unique_of_nodup ues hn hqpair hmem
    rw [hval]
    omega

theorem lookupD_sliceAlloc_zero (B : Nat) (ues : List (Nat × Nat)) (k : Nat)
    (h : k ∉ ues.map (·.1)) : lookupD (sliceAlloc B ues) k 0 = 0 := by
  apply lookupD_eq_of_not_mem
  intro hk
  exact h ((sliceAlloc_keys B ues).mem_iff.mp hk)

theorem mem_firstOccAux : ∀ (l : List Nat) (seen : List Nat) (x : Nat),
    x ∈ firstOccAux seen l ↔ (x ∈ l ∧ x ∉ seen) := by
  intro l
  induction l with
  | nil => intro seen x; simp [firstOccAux]
  | cons y ys ih =>
    intro seen x
    by_cases hy : y ∈ seen
    · rw [firstOccAux, if_pos hy, ih seen x]
      constructor
      · rintro ⟨h1, h2⟩
        exact ⟨List.mem_cons_of_mem y h1, h2⟩
      · rintro ⟨h1, h2⟩
        rcases List.mem_cons.mp h1 with h | h
        · subst h
          exact absurd hy h2
        · exact ⟨h, h2⟩
    · rw [firstOccAux, if_neg hy]
      constructor
      · intro hx
        rcases List.mem_cons.mp hx with h | h
        · subst h
          exact ⟨List.mem_cons_self x ys, hy⟩
        · rcases (ih (y :: seen) x).mp h with ⟨h1, h2⟩
          refine ⟨List.mem_cons_of_mem y h1, fun hs => h2 (List.mem_cons_of_mem y hs)⟩
      · rintro ⟨h1, h2⟩
        by_cases hxy : x = y
        · subst hxy
          exact List.mem_cons_self x _
        · rcases List.mem_cons.mp h1 with h | h
          · exact absurd h hxy
          · refine List.mem_cons_of_mem y ((ih (y :: seen) x).mpr ⟨h, ?_⟩)
            intro hs
            rcases List.mem_cons.mp hs with h3 | h3
            · exact hxy h3
            · exact h2 h3

theorem nodup_firstOccAux : ∀ (l : List Nat) (seen : List Nat),
    (firstOccAux seen l).Nodup := by
  intro l
  induction l with
  | nil => intro seen; simp [firstOccAux]
  | cons y ys ih =>
    intro seen
    by_cases hy : y ∈ seen
    · rw [firstOccAux, if_pos hy]
      exact ih seen
    · rw [firstOccAux, if_neg hy]
      refine List.nodup_cons.mpr ⟨?_, ih (y :: seen)⟩
      intro hmem
      exact ((mem_firstOccAux ys (y :: seen) y).mp hmem).2 (List.mem_cons_self y seen)

theorem mem_firstOcc (l : List Nat) (x : Nat) : x ∈ firstOcc l ↔ x ∈ l := by
  unfold firstOcc
  rw [mem_firstOccAux]
  simp

theorem nodup_firstOcc (l : List Nat) : (firstOcc l).Nodup :=
  nodup_firstOccAux l []

theorem sum_filter_split {α : Type} (l : List α) (p : α → Bool) (g : α → Nat) :
    (l.map g).sum = ((l.filter p).map g).sum + ((l.filter (fun x => ! p x)).map g).sum := by
  have h := ((List.filter_append_perm p l).map g).sum_eq
  rw [List.map_append, List.sum_append] at h
  omega

/-- Splitting a sum over UE records into per-slice sums, over any nodup
covering list of slices. -/
theorem sum_partition_aux : ∀ (S : List Nat), S.Nodup →
    ∀ (l : List UEReq), (∀ r ∈ l, r.sl ∈ S) → ∀ (g : UEReq → Nat),
    (l.map g).sum = (S.map (fun s => ((l.filter (fun r => r.sl == s)).map g).sum)).sum := by
  intro S
  induction S with
  | nil =>
    intro _ l hcov g
    have hl : l = [] := by
      cases l with
      | nil => rfl
      | cons r t => exact absurd (hcov r (List.mem_cons_self r t)) (List.not_mem_nil r.sl)
    subst hl
    rfl
  | cons s S ih =>
    intro hnod l hcov g
    have hnod2 := List.nodup_cons.mp hnod
    rw [sum_filter_split l (fun r => r.sl == s) g]
    rw [List.map_cons, List.sum_cons]
    congr 1
    have hcov2 : ∀ r ∈ l.filter (fun r => ! (r.sl == s)), r.sl ∈ S := by
      intro r hr
      have hmem := List.mem_filter.mp hr
      have hne : r.sl ≠ s := by simpa using hmem.2
      rcases List.mem_cons.mp (hcov r hmem.1) with h | h
      · exact absurd h hne
      · exact h
    rw [ih hnod2.2 _ hcov2 g]
    apply congrArg List.sum
    apply List.map_congr_left
    intro t ht
    have hts : t ≠ s := fun he => hnod2.1 (he ▸ ht)
    congr 1
    rw [List.filter_filter]
    apply congrArg
    apply List.filter_congr
    intro r _
    by_cases hrt : r.sl = t
    · have hrs : (r.sl == s) = false := beq_eq_false_iff_ne.mpr (by rw [hrt]; exact hts)
      have hrt2 : (r.sl == t) = true := by rw [hrt]; exact beq_self_eq_true t
      rw [hrs, hrt2]
      rfl
    · have hrt2 : (r.sl == t) = false := beq_eq_false_iff_ne.mpr hrt
      rw [hrt2]
      exact Bool.false_and _

/-- Per-slice conservation: what a slice allocates plus what it leaks to the
global leftover never exceeds its own budget. -/
theorem sliceAlloc_add_leftover_le (B : Nat) (ues : List (Nat × Nat)) :
    ((sliceAlloc B ues).map (·.2)).sum + sliceLeftover B ues ≤ B := by
  unfold sliceLeftover
  by_cases h0 : (ues.map (·.2)).sum = 0
  · rw [if_pos h0, sliceAlloc_eq_zero h0, List.map_map]
    have hz : ((fun x : Nat × Nat => x.2) ∘ fun p : Nat × Nat => (p.1, 0))
        = fun _ : Nat × Nat => 0 := rfl
    rw [hz]
    simp
  · rw [if_neg h0]
    by_cases h1 : (ues.map (·.2)).sum ≤ B
    · rw [if_pos h1, sliceAlloc_eq_under h0 h1]
      omega
    · rw [if_neg h1]
      have := sliceAlloc_sum_le B ues
      omega

/-! ### Properties of weight normalization and the Stage-2 partition -/

theorem normWeights_nonneg (w : List (Nat × ℚ)) : ∀ p ∈ normWeights w, 0 ≤ p.2 := by
  intro p hp
  unfold normWeights at hp
  rcases List.mem_map.mp hp with ⟨q, _, hqp⟩
  rw [← hqp]
  have hws0 : (0 : ℚ) ≤ ((if w.isEmpty then [((0 : Nat), (1 : ℚ))] else w).map
      (fun p => max 0 p.2)).sum :=
    List.sum_nonneg (fun x hx => by
      rcases List.mem_map.mp hx with ⟨r, _, hrx⟩
      rw [← hrx]
      exact le_max_left 0 r.2)
  by_cases h : ((if w.isEmpty then [((0 : Nat), (1 : ℚ))] else w).map
      (fun p => max 0 p.2)).sum = 0
  · simp only [h, if_pos rfl]
    positivity
  · simp only [h, if_neg h]
    have : (0 : ℚ) < ((if w.isEmpty then [((0 : Nat), (1 : ℚ))] else w).map
        (fun p => max 0 p.2)).sum := lt_of_le_of_ne hws0 (Ne.symm h)
    positivity

/-- The normalized weights sum to `ws0 / ws`: `1` when some clamped weight
is positive, `0` when all are zero (Python re-normalizes by `or 1.0`). -/
theorem normWeights_sum (w : List (Nat × ℚ)) :
    ((normWeights w).map (·.2)).sum =
      (if ((if w.isEmpty then [((0 : Nat), (1 : ℚ))] else w).map
        (fun p => max 0 p.2)).sum = 0 then 0 else 1) := by
  unfold normWeights
  rw [List.map_map]
  have hmap : ((fun x : Nat × ℚ => x.2) ∘ fun p : Nat × ℚ =>
      (p.1, max 0 p.2 / if ((if w.isEmpty then [((0 : Nat), (1 : ℚ))] else w).map
        (fun p => max 0 p.2)).sum = 0 then 1
        else ((if w.isEmpty then [((0 : Nat), (1 : ℚ))] else w).map (fun p => max 0 p.2)).sum))
      = fun p : Nat × ℚ => (max 0 p.2) /
        (if ((if w.isEmpty then [((0 : Nat), (1 : ℚ))] else w).map
          (fun p => max 0 p.2)).sum = 0 then 1
          else ((if w.isEmpty then [((0 : Nat), (1 : ℚ))] else w).map
            (fun p => max 0 p.2)).sum) := rfl
  rw [hmap, sum_map_div]
  by_cases h : ((if w.isEmpty then [((0 : Nat), (1 : ℚ))] else w).map
      (fun p => max 0 p.2)).sum = 0
  · rw [if_pos h, if_pos h, h, zero_div]
  · rw [if_neg h, if_neg h, div_self h]

theorem normWeights_sum_le (w : List (Nat × ℚ)) :
    ((normWeights w).map (·.2)).sum ≤ 1 := by
  rw [normWeights_sum]
  by_cases h : ((if w.isEmpty then [((0 : Nat), (1 : ℚ))] else w).map
      (fun p => max 0 p.2)).sum = 0
  · rw [if_pos h]
    norm_num
  · rw [if_neg h]

theorem normWeights_keys (w : List (Nat × ℚ)) :
    (normWeights w).map (·.1) = (if w.isEmpty then [((0 : Nat), (1 : ℚ))] else w).map (·.1) := by
  unfold normWeights
  rw [List.map_map]
  rfl

/-- Value sum of the mapped increment list in Stage 2: base budgets plus
one per winner entry. -/
theorem sum_map_winners (l : List (Nat × Nat)) (W : List Nat) :
    ((l.map (fun p => if p.1 ∈ W then (p.1, p.2 + 1) else p)).map (·.2)).sum
      = (l.map (·.2)).sum + (l.filter (fun p => decide (p.1 ∈ W))).length := by
  induction l with
  | nil => rfl
  | cons p t ih =>
    by_cases hp : p.1 ∈ W
    · rw [List.map_cons, if_pos hp, List.map_cons, List.sum_cons, ih,
        List.filter_cons_of_pos (by simpa using hp)]
      simp only [List.map_cons, List.sum_cons, List.length_cons]
      omega
    · rw [List.map_cons, if_neg hp, List.map_cons, List.sum_cons, ih,
        List.filter_cons_of_neg (by simpa using hp)]
      simp only [List.map_cons, List.sum_cons]
      omega

theorem filter_mem_length_le (l : List (Nat × Nat)) (W : List Nat)
    (hl : (l.map (·.1)).Nodup) :
    (l.filter (fun p => decide (p.1 ∈ W))).length ≤ W.length := by
  have hsub : (l.filter (fun p => decide (p.1 ∈ W))).map (·.1) ⊆ W := by
    intro x hx
    rcases List.mem_map.mp hx with ⟨p, hp, hpx⟩
    have := (List.mem_filter.mp hp).2
    rw [← hpx]
    simpa using this
  have hnod : ((l.filter (fun p => decide (p.1 ∈ W))).map (·.1)).Nodup := by
    have hsl : (l.filter (fun p => decide (p.1 ∈ W))).Sublist l := List.filter_sublist l
    exact (hsl.map (·.1)).nodup hl
  have := (hnod.subperm hsub).length_le
  rwa [List.length_map] at this

/-- The key multiset of the filtered winners is exactly the winner list
when winners are nodup and all drawn from the keys. -/
theorem filter_mem_length_eq (l : List (Nat × Nat)) (W : List Nat)
    (hl : (l.map (·.1)).Nodup) (hW : W.Nodup)
    (hWsub : ∀ x ∈ W, x ∈ l.map (·.1)) :
    (l.filter (fun p => decide (p.1 ∈ W))).length = W.length := by
  have hnod : ((l.filter (fun p => decide (p.1 ∈ W))).map (·.1)).Nodup := by
    have hsl : (l.filter (fun p => decide (p.1 ∈ W))).Sublist l := List.filter_sublist l
    exact (hsl.map (·.1)).nodup hl
  have hmemiff : ∀ x, x ∈ (l.filter (fun p => decide (p.1 ∈ W))).map (·.1) ↔ x ∈ W := by
    intro x
    constructor
    · intro hx
      rcases List.mem_map.mp hx with ⟨p, hp, hpx⟩
      have := (List.mem_filter.mp hp).2
      rw [← hpx]
      simpa using this
    · intro hx
      rcases List.mem_map.mp (hWsub x hx) with ⟨p, hp, hpx⟩
      apply List.mem_map.mpr
      refine ⟨p, ?_, hpx⟩
      apply List.mem_filter.mpr
      refine ⟨hp, ?_⟩
      simp only [decide_eq_true_eq]
      rw [hpx]
      exact hx
  have hperm : ((l.filter (fun p => decide (p.1 ∈ W))).map (·.1)).Perm W :=
    (List.perm_ext_iff_of_nodup hnod hW).mpr hmemiff
  have := hperm.length_eq
  rwa [List.length_map] at this

/-- The Stage-2 base budgets consume at most the whole budget when weights
are clamped nonnegative and sum to at most one. -/
theorem stage2_base_le (budget : Nat) (nw : List (Nat × ℚ))
    (h0 : ∀ p ∈ nw, 0 ≤ p.2) (h1 : (nw.map (·.2)).sum ≤ 1) :
    ((nw.map (fun p => (p.1, (⌊(budget : ℚ) * p.2⌋).toNat))).map (·.2)).sum ≤ budget := by
  rw [List.map_map]
  have hc : (((nw.map ((fun x : Nat × Nat => x.2) ∘ fun p : Nat × ℚ =>
      (p.1, (⌊(budget : ℚ) * p.2⌋).toNat))).sum : Nat) : ℤ)
      = (nw.map (fun p => ⌊(budget : ℚ) * p.2⌋)).sum := by
    rw [Nat.cast_list_sum, List.map_map]
    apply congrArg
    apply List.map_congr_left
    intro p hp
    show (((⌊(budget : ℚ) * p.2⌋).toNat : ℤ)) = ⌊(budget : ℚ) * p.2⌋
    exact Int.toNat_of_nonneg (Int.floor_nonneg.mpr (mul_nonneg (by positivity) (h0 p hp)))
  have hfl : (nw.map (fun p => ⌊(budget : ℚ) * p.2⌋)).sum ≤ (budget : ℤ) := by
    have hsum := sum_floor_le (nw.map (fun p => (budget : ℚ) * p.2))
    rw [List.map_map] at hsum
    have hsq : (nw.map (fun p => (budget : ℚ) * p.2)).sum
        = (budget : ℚ) * (nw.map (·.2)).sum := by
      have := List.sum_map_mul_left nw (fun p : Nat × ℚ => p.2) ((budget : ℚ))
      simpa using this
    have hle : (nw.map (fun p => (budget : ℚ) * p.2)).sum ≤ (budget : ℚ) := by
      rw [hsq]
      calc (budget : ℚ) * (nw.map (·.2)).sum ≤ (budget : ℚ) * 1 :=
        mul_le_mul_of_nonneg_left h1 (by positivity)
      _ = (budget : ℚ) := mul_one _
    calc (nw.map (fun p => ⌊(budget : ℚ) * p.2⌋)).sum
        ≤ ⌊(nw.map (fun p => (budget : ℚ) * p.2)).sum⌋ := hsum
      _ ≤ ⌊(budget : ℚ)⌋ := Int.floor_le_floor hle
      _ = (budget : ℤ) := Int.floor_natCast budget
  omega

theorem stage2Base_keys (budget : Nat) (nw : List (Nat × ℚ)) :
    (stage2Base budget nw).map (·.1) = nw.map (·.1) := by
  unfold stage2Base
  rw [List.map_map]
  rfl

/-- Cast of the Stage-2 base-budget sum to ℚ (weights nonnegative). -/
theorem stage2Base_cast (budget : Nat) (nw : List (Nat × ℚ))
    (h0 : ∀ p ∈ nw, 0 ≤ p.2) :
    ((((stage2Base budget nw).map (·.2)).sum : Nat) : ℚ)
      = (nw.map (fun p => ((⌊(budget : ℚ) * p.2⌋ : ℤ) : ℚ))).sum := by
  unfold stage2Base
  rw [List.map_map, Nat.cast_list_sum, List.map_map]
  apply congrArg
  apply List.map_congr_left
  intro p hp
  show (((⌊(budget : ℚ) * p.2⌋).toNat : ℤ) : ℚ) = ((⌊(budget : ℚ) * p.2⌋ : ℤ) : ℚ)
  rw [Int.toNat_of_nonneg (Int.floor_nonneg.mpr (mul_nonneg (by positivity) (h0 p hp)))]

/-- The Stage-2 partition never hands out more than the budget. -/
theorem sliceBudgets_sum_le (budget : Nat) (nw : List (Nat × ℚ))
    (hkeys : (nw.map (·.1)).Nodup) (h0 : ∀ p ∈ nw, 0 ≤ p.2)
    (h1 : (nw.map (·.2)).sum ≤ 1) :
    ((sliceBudgets budget nw).map (·.2)).sum ≤ budget := by
  unfold sliceBudgets
  rw [sum_map_winners]
  have hb : ((stage2Base budget nw).map (·.2)).sum ≤ budget := stage2_base_le budget nw h0 h1
  have hbkeys : ((stage2Base budget nw).map (·.1)).Nodup := by
    rw [stage2Base_keys]
    exact hkeys
  have hc := filter_mem_length_le (stage2Base budget nw) (stage2Winners budget nw) hbkeys
  have hw : (stage2Winners budget nw).length ≤ stage2Leftover budget nw := by
    unfold stage2Winners
    rw [List.length_map]
    exact List.length_take_le _ _
  unfold stage2Leftover at hw
  omega

/-- When the normalized weights sum to exactly 1 (and at least one slice
is configured), the Stage-2 partition sums to exactly the budget. -/
theorem sliceBudgets_sum_eq (budget : Nat) (nw : List (Nat × ℚ))
    (hkeys : (nw.map (·.1)).Nodup) (h0 : ∀ p ∈ nw, 0 ≤ p.2)
    (hsum1 : (nw.map (·.2)).sum = 1) (hne : nw ≠ []) :
    ((sliceBudgets budget nw).map (·.2)).sum = budget := by
  unfold sliceBudgets
  rw [sum_map_winners]
  have hb : ((stage2Base budget nw).map (·.2)).sum ≤ budget :=
    stage2_base_le budget nw h0 (le_of_eq hsum1)
  have hbkeys : ((stage2Base budget nw).map (·.1)).Nodup := by
    rw [stage2Base_keys]
    exact hkeys
  -- the leftover is the sum of fractional parts, hence < number of slices
  have hfrac : ((stage2Leftover budget nw : Nat) : ℚ)
      = (nw.map (fun p => (budget : ℚ) * p.2 - ⌊(budget : ℚ) * p.2⌋)).sum := by
    have hsub : (nw.map (fun p => (budget : ℚ) * p.2 - ⌊(budget : ℚ) * p.2⌋)).sum
        = (nw.map (fun p => (budget : ℚ) * p.2)).sum
          - (nw.map (fun p => ((⌊(budget : ℚ) * p.2⌋ : ℤ) : ℚ))).sum := by
      rw [← sum_map_sub]
    have hshare : (nw.map (fun p => (budget : ℚ) * p.2)).sum = (budget : ℚ) := by
      have := List.sum_map_mul_left nw (fun p : Nat × ℚ => p.2) ((budget : ℚ))
      rw [this]
      have h2 : (nw.map (fun p : Nat × ℚ => p.2)).sum = 1 := hsum1
      rw [h2, mul_one]
    unfold stage2Leftover
    rw [Nat.cast_sub hb, hsub, hshare, stage2Base_cast budget nw h0]
  have hlen : stage2Leftover budget nw < nw.length := by
    have hlt : ((stage2Leftover budget nw : Nat) : ℚ) < (nw.length : ℚ) := by
      rw [hfrac]
      have := sum_lt_length (nw.map (fun p => (budget : ℚ) * p.2 - ⌊(budget : ℚ) * p.2⌋))
        (by
          intro x hx
          rcases List.mem_map.mp hx with ⟨p, _, hpx⟩
          rw [← hpx]
          have := Int.lt_floor_add_one ((budget : ℚ) * p.2)
          push_cast at this ⊢
          linarith)
        (by
          intro hmapnil
          exact hne (List.map_eq_nil_iff.mp hmapnil))
      rwa [List.length_map] at this
    exact_mod_cast hlt
  have hremlen : (stage2Rems budget nw).length = nw.length := by
    unfold stage2Rems
    rw [(List.perm_insertionSort _ _).length_eq, List.length_map]
  have hwlen : (stage2Winners budget nw).length = stage2Leftover budget nw := by
    unfold stage2Winners
    rw [List.length_map, List.length_take, hremlen]
    omega
  -- the winners are nodup keys drawn from the base keys
  have hremkeys : ((stage2Rems budget nw).map (·.2)).Perm (nw.map (·.1)) := by
    unfold stage2Rems
    have hperm := (List.perm_insertionSort (fun a b => wGE a b = true)
      (nw.map (fun p => ((budget : ℚ) * p.2 - ⌊(budget : ℚ) * p.2⌋, p.1)))).map
      (fun q : ℚ × Nat => q.2)
    have heq : (nw.map (fun p => ((budget : ℚ) * p.2 - ⌊(budget : ℚ) * p.2⌋, p.1))).map
        (fun q : ℚ × Nat => q.2) = nw.map (·.1) := by
      rw [List.map_map]
      rfl
    rw [heq] at hperm
    exact hperm
  have hWnodup : (stage2Winners budget nw).Nodup := by
    unfold stage2Winners
    have h1 : ((stage2Rems budget nw).take (stage2Leftover budget nw)).map (·.2)
        = ((stage2Rems budget nw).map (·.2)).take (stage2Leftover budget nw) := by
      rw [List.map_take]
    rw [h1]
    exact (List.take_sublist _ _).nodup (hremkeys.nodup_iff.mpr hkeys)
  have hWsub : ∀ x ∈ stage2Winners budget nw, x ∈ (stage2Base budget nw).map (·.1) := by
    intro x hx
    rw [stage2Base_keys]
    unfold stage2Winners at hx
    rw [List.map_take] at hx
    exact hremkeys.mem_iff.mp ((List.take_sublist _ _).mem hx)
  have hcount := filter_mem_length_eq (stage2Base budget nw) (stage2Winners budget nw)
    hbkeys hWnodup hWsub
  rw [hcount, hwlen]
  unfold stage2Leftover
  omega

/-! ### Composing the stages: bounds on the committed allocation -/

theorem normWeights_keys_nodup (w : List (Nat × ℚ)) (h : (w.map (·.1)).Nodup) :
    ((normWeights w).map (·.1)).Nodup := by
  rw [normWeights_keys]
  by_cases he : w.isEmpty
  · rw [if_pos he]
    simp
  · rw [if_neg he]
    exact h

theorem uesInSlice_keys (cap : Option Nat) (reqs : List UEReq) (s : Nat) :
    (uesInSlice cap reqs s).map (·.1) = (reqs.filter (fun r => r.sl == s)).map (·.imsi) := by
  unfold uesInSlice
  rw [List.map_map]
  rfl

theorem uesInSlice_keys_nodup (cap : Option Nat) (reqs : List UEReq) (s : Nat)
    (h : (reqs.map (·.imsi)).Nodup) : ((uesInSlice cap reqs s).map (·.1)).Nodup := by
  rw [uesInSlice_keys]
  exact ((List.filter_sublist reqs).map (·.imsi)).nodup h

theorem ueAlloc3_eq (budget : Nat) (weights : List (Nat × ℚ)) (cap : Option Nat)
    (reqs : List UEReq) (hnodup : (reqs.map (·.imsi)).Nodup) (r : UEReq) (hr : r ∈ reqs) :
    ueAlloc3 budget weights cap reqs r.imsi
      = lookupD (sliceAlloc (lookupD (sliceBudgets budget (normWeights weights)) r.sl 0)
          (uesInSlice cap reqs r.sl)) r.imsi 0 := by
  unfold ueAlloc3
  rw [find?_key_of_mem UEReq.imsi reqs hnodup r hr]

theorem ueAlloc3_not_mem (budget : Nat) (weights : List (Nat × ℚ)) (cap : Option Nat)
    (reqs : List UEReq) (i : Nat) (h : i ∉ reqs.map (·.imsi)) :
    ueAlloc3 budget weights cap reqs i = 0 := by
  unfold ueAlloc3
  have : reqs.find? (fun r => r.imsi == i) = none := by
    apply List.find?_eq_none.mpr
    intro x hx
    simp only [beq_iff_eq]
    intro he
    exact h (he ▸ List.mem_map.mpr ⟨x, hx, rfl⟩)
  rw [this]

theorem roomsList_keys (budget : Nat) (weights : List (Nat × ℚ)) (cap : Option Nat)
    (reqs : List UEReq) :
    (roomsList budget weights cap reqs).map (·.1) = reqs.map (·.imsi) := by
  unfold roomsList
  rw [List.map_map]
  rfl

/-- Stage 3 plus the leaked leftover stays within the sum of the slice
budgets. -/
theorem sum_ueAlloc3_add_leftover_le (budget : Nat) (weights : List (Nat × ℚ))
    (cap : Option Nat) (reqs : List UEReq) (hnodup : (reqs.map (·.imsi)).Nodup) :
    (reqs.map (fun r => ueAlloc3 budget weights cap reqs r.imsi)).sum
        + globalLeftover budget weights cap reqs
      ≤ ((sliceBudgets budget (normWeights weights)).map (·.2)).sum := by
  have hcongr : reqs.map (fun r => ueAlloc3 budget weights cap reqs r.imsi)
      = reqs.map (fun r => lookupD (sliceAlloc
          (lookupD (sliceBudgets budget (normWeights weights)) r.sl 0)
          (uesInSlice cap reqs r.sl)) r.imsi 0) :=
    List.map_congr_left (fun r hr => ueAlloc3_eq budget weights cap reqs hnodup r hr)
  rw [hcongr]
  have hpart := sum_partition_aux (firstOcc (reqs.map (·.sl))) (nodup_firstOcc _) reqs
    (fun r hr => (mem_firstOcc _ _).mpr (List.mem_map.mpr ⟨r, hr, rfl⟩))
    (fun r => lookupD (sliceAlloc
      (lookupD (sliceBudgets budget (normWeights weights)) r.sl 0)
      (uesInSlice cap reqs r.sl)) r.imsi 0)
  rw [hpart]
  -- rewrite each slice's summand as the value sum of its sliceAlloc result
  have hslice : ∀ s ∈ firstOcc (reqs.map (·.sl)),
      ((reqs.filter (fun r => r.sl == s)).map (fun r => lookupD (sliceAlloc
          (lookupD (sliceBudgets budget (normWeights weights)) r.sl 0)
          (uesInSlice cap reqs r.sl)) r.imsi 0)).sum
        = ((sliceAlloc (lookupD (sliceBudgets budget (normWeights weights)) s 0)
            (uesInSlice cap reqs s)).map (·.2)).sum := by
    intro s _
    have hinner : (reqs.filter (fun r => r.sl == s)).map (fun r => lookupD (sliceAlloc
        (lookupD (sliceBudgets budget (normWeights weights)) r.sl 0)
        (uesInSlice cap reqs r.sl)) r.imsi 0)
        = (reqs.filter (fun r => r.sl == s)).map (fun r => lookupD (sliceAlloc
            (lookupD (sliceBudgets budget (normWeights weights)) s 0)
            (uesInSlice cap reqs s)) r.imsi 0) := by
      apply List.map_congr_left
      intro r hr
      have : r.sl = s := by simpa using (List.mem_filter.mp hr).2
      rw [this]
    rw [hinner]
    have hK : ((reqs.filter (fun r => r.sl == s)).map (·.imsi)).Perm
        ((sliceAlloc (lookupD (sliceBudgets budget (normWeights weights)) s 0)
          (uesInSlice cap reqs s)).map (·.1)) := by
      have h1 := sliceAlloc_keys (lookupD (sliceBudgets budget (normWeights weights)) s 0)
        (uesInSlice cap reqs s)
      rw [uesInSlice_keys] at h1
      exact h1.symm
    have hresnodup : ((sliceAlloc (lookupD (sliceBudgets budget (normWeights weights)) s 0)
        (uesInSlice cap reqs s)).map (·.1)).Nodup := by
      apply hK.nodup
      exact ((List.filter_sublist reqs).map (·.imsi)).nodup hnodup
    have := sum_lookup_perm (sliceAlloc (lookupD (sliceBudgets budget (normWeights weights)) s 0)
      (uesInSlice cap reqs s)) ((reqs.filter (fun r => r.sl == s)).map (·.imsi)) hK hresnodup
    rw [← this, List.map_map]
    rfl
  rw [List.map_congr_left hslice]
  unfold globalLeftover
  rw [← sum_map_add]
  have hpointwise : ∀ s ∈ firstOcc (reqs.map (·.sl)),
      ((sliceAlloc (lookupD (sliceBudgets budget (normWeights weights)) s 0)
          (uesInSlice cap reqs s)).map (·.2)).sum
        + sliceLeftover (lookupD (sliceBudgets budget (normWeights weights)) s 0)
            (uesInSlice cap reqs s)
      ≤ lookupD (sliceBudgets budget (normWeights weights)) s 0 :=
    fun s _ => sliceAlloc_add_leftover_le _ _
  calc ((firstOcc (reqs.map (·.sl))).map (fun s =>
        ((sliceAlloc (lookupD (sliceBudgets budget (normWeights weights)) s 0)
          (uesInSlice cap reqs s)).map (·.2)).sum
        + sliceLeftover (lookupD (sliceBudgets budget (normWeights weights)) s 0)
            (uesInSlice cap reqs s))).sum
      ≤ ((firstOcc (reqs.map (·.sl))).map (fun s =>
          lookupD (sliceBudgets budget (normWeights weights)) s 0)).sum :=
        List.sum_le_sum hpointwise
    _ ≤ ((sliceBudgets budget (normWeights weights)).map (·.2)).sum :=
        sum_lookup_le _ _ (nodup_firstOcc _)

/-- The committed downlink total over the demand records never exceeds the
cell budget. -/
theorem finalAlloc_sum_le (budget : Nat) (weights : List (Nat × ℚ)) (cap : Option Nat)
    (reqs : List UEReq) (hreq : (reqs.map (·.imsi)).Nodup)
    (hw : (weights.map (·.1)).Nodup) :
    (reqs.map (fun r => finalAlloc budget weights cap reqs r.imsi)).sum ≤ budget := by
  unfold finalAlloc
  rw [sum_map_add]
  have hstage4 : (reqs.map (fun r => lookupD (sliceAlloc
      (globalLeftover budget weights cap reqs)
      (roomsList budget weights cap reqs)) r.imsi 0)).sum
      ≤ globalLeftover budget weights cap reqs := by
    have hK : (reqs.map (·.imsi)).Perm
        ((sliceAlloc (globalLeftover budget weights cap reqs)
          (roomsList budget weights cap reqs)).map (·.1)) := by
      have h1 := sliceAlloc_keys (globalLeftover budget weights cap reqs)
        (roomsList budget weights cap reqs)
      rw [roomsList_keys] at h1
      exact h1.symm
    have hresnodup : ((sliceAlloc (globalLeftover budget weights cap reqs)
        (roomsList budget weights cap reqs)).map (·.1)).Nodup := hK.nodup hreq
    have hsum := sum_lookup_perm (sliceAlloc (globalLeftover budget weights cap reqs)
      (roomsList budget weights cap reqs)) (reqs.map (·.imsi)) hK hresnodup
    have hmm : (reqs.map (fun r => lookupD (sliceAlloc
        (globalLeftover budget weights cap reqs)
        (roomsList budget weights cap reqs)) r.imsi 0)).sum
        = ((reqs.map (·.imsi)).map (fun i => lookupD (sliceAlloc
            (globalLeftover budget weights cap reqs)
            (roomsList budget weights cap reqs)) i 0)).sum := by
      rw [List.map_map]
      rfl
    rw [hmm, hsum]
    exact sliceAlloc_sum_le _ _
  have hstage3 := sum_ueAlloc3_add_leftover_le budget weights cap reqs hreq
  have hbudget : ((sliceBudgets budget (normWeights weights)).map (·.2)).sum ≤ budget :=
    sliceBudgets_sum_le budget (normWeights weights)
      (normWeights_keys_nodup weights hw) (normWeights_nonneg weights)
      (normWeights_sum_le weights)
  omega

theorem finalAlloc_not_mem (budget : Nat) (weights : List (Nat × ℚ)) (cap : Option Nat)
    (reqs : List UEReq) (i : Nat) (h : i ∉ reqs.map (·.imsi)) :
    finalAlloc budget weights cap reqs i = 0 := by
  unfold finalAlloc
  rw [ueAlloc3_not_mem budget weights cap reqs i h]
  rw [lookupD_sliceAlloc_zero _ _ _ (by rw [roomsList_keys]; exact h)]

/-- Summing a nonnegative function that vanishes off `M` over any nodup
list is bounded by its sum over nodup `M`. -/
theorem sum_le_of_zero_off (f : Nat → Nat) (K M : List Nat) (hK : K.Nodup)
    (hf : ∀ i, i ∉ M → f i = 0) :
    (K.map f).sum ≤ (M.map f).sum := by
  rw [sum_filter_split K (fun i => decide (i ∈ M)) f]
  have hz : ((K.filter (fun i => ! decide (i ∈ M))).map f).sum = 0 := by
    apply List.sum_eq_zero
    intro x hx
    rcases List.mem_map.mp hx with ⟨i, hi, hix⟩
    have : i ∉ M := by simpa using (List.mem_filter.mp hi).2
    rw [← hix]
    exact hf i this
  rw [hz, Nat.add_zero]
  have hsub : (K.filter (fun i => decide (i ∈ M))).Subperm M := by
    apply List.Nodup.subperm
    · exact (List.filter_sublist K).nodup hK
    · intro x hx
      simpa using (List.mem_filter.mp hx).2
  obtain ⟨l, hperm, hsl⟩ := hsub
  calc ((K.filter (fun i => decide (i ∈ M))).map f).sum
      = (l.map f).sum := ((hperm.map f).sum_eq).symm
    _ ≤ (M.map f).sum := sublist_sum_le (hsl.map f)

theorem ueAlloc3_le_desired (budget : Nat) (weights : List (Nat × ℚ)) (cap : Option Nat)
    (reqs : List UEReq) (hnodup : (reqs.map (·.imsi)).Nodup) (r : UEReq) (hr : r ∈ reqs) :
    ueAlloc3 budget weights cap reqs r.imsi ≤ desiredOf cap r.want := by
  rw [ueAlloc3_eq budget weights cap reqs hnodup r hr]
  apply lookupD_sliceAlloc_le _ _ (uesInSlice_keys_nodup cap reqs r.sl hnodup)
  apply List.mem_map.mpr
  refine ⟨r, ?_, rfl⟩
  apply List.mem_filter.mpr
  exact ⟨hr, by simp⟩

theorem finalAlloc_le_desired (budget : Nat) (weights : List (Nat × ℚ)) (cap : Option Nat)
    (reqs : List UEReq) (hnodup : (reqs.map (·.imsi)).Nodup) (r : UEReq) (hr : r ∈ reqs) :
    finalAlloc budget weights cap reqs r.imsi ≤ desiredOf cap r.want := by
  unfold finalAlloc
  have h3 := ueAlloc3_le_desired budget weights cap reqs hnodup r hr
  have h4 : lookupD (sliceAlloc (globalLeftover budget weights cap reqs)
      (roomsList budget weights cap reqs)) r.imsi 0
      ≤ desiredOf cap r.want - ueAlloc3 budget weights cap reqs r.imsi := by
    apply lookupD_sliceAlloc_le _ _ (by rw [roomsList_keys]; exact hnodup)
    unfold roomsList
    exact List.mem_map.mpr ⟨r, hr, rfl⟩
  omega

/-- With a configured per-UE cap, no UE is ever committed more than the
cap, whatever its demand and whatever leftovers get redistributed. -/
theorem finalAlloc_le_cap (budget : Nat) (weights : List (Nat × ℚ)) (c : Nat)
    (reqs : List UEReq) (hreq : (reqs.map (·.imsi)).Nodup) (i : Nat) :
    finalAlloc budget weights (some c) reqs i ≤ c := by
  by_cases hi : i ∈ reqs.map (·.imsi)
  · rcases List.mem_map.mp hi with ⟨r, hr, hri⟩
    subst hri
    have := finalAlloc_le_desired budget weights (some c) reqs hreq r hr
    have hd : desiredOf (some c) r.want ≤ c := Nat.min_le_right r.want c
    omega
  · rw [finalAlloc_not_mem budget weights (some c) reqs i hi]
    exact Nat.zero_le c

/-! ### Cell state, lifecycle, and load metrics -/

/-- One entry of `prb_ue_allocation_dict` (line 25): downlink and uplink
PRB counts. -/
structure PrbPair where
  downlink : Nat
  uplink : Nat
deriving DecidableEq, Repr

/-- The mutable cell state touched by the claims: PRB-count configuration
(lines 16-18), the allocation dict and connected set (lines 25-26), the
uplink signal map (line 27), the observability maps (lines 31-32), slice
weights (lines 44-48), and the per-UE cap (line 36).  Dicts are embedded
as association lists in insertion order; UE ids are naturals. -/
structure CellState where
  max_prb : Nat
  max_dl_prb : Nat
  max_ul_prb : Nat
  prb_ue_allocation_dict : List (Nat × PrbPair)
  connected_ue_list : List Nat
  ue_uplink_signal_strength_dict : List (Nat × ℚ)
  dl_total_prb_demand : List (Nat × Nat)
  dl_throughput_per_prb_map : List (Nat × ℚ)
  slice_weights : List (Nat × ℚ)
  prb_per_ue_cap : Option Nat
deriving DecidableEq, Repr

/-- `allocated_dl_prb` property (lines 64-71): sum of the downlink PRBs of
the connected UEs.  The lookup assumes the documented invariant that the
allocation dict covers the connected set (spec §3); a missing UE counts 0
here where Python would raise `KeyError`. -/
def allocated_dl_prb (st : CellState) : Nat :=
  (st.connected_ue_list.map
    (fun i => (lookupD st.prb_ue_allocation_dict i ⟨0, 0⟩).downlink)).sum

/-- `allocated_ul_prb` property (lines 73-80). -/
def allocated_ul_prb (st : CellState) : Nat :=
  (st.connected_ue_list.map
    (fun i => (lookupD st.prb_ue_allocation_dict i ⟨0, 0⟩).uplink)).sum

/-- `allocated_prb` property (lines 82-90). -/
def allocated_prb (st : CellState) : Nat :=
  (st.connected_ue_list.map
    (fun i => (lookupD st.prb_ue_allocation_dict i ⟨0, 0⟩).uplink
      + (lookupD st.prb_ue_allocation_dict i ⟨0, 0⟩).downlink)).sum

/-- `current_load` property (lines 92-94): the bare division
`allocated_prb / max_prb`.  A zero denominator raises `ZeroDivisionError`
in Python, embedded as `none`. -/
def current_load (st : CellState) : Option ℚ :=
  if st.max_prb = 0 then none else some ((allocated_prb st : ℚ) / st.max_prb)

/-- `current_dl_load` property (lines 96-98), unguarded like
`current_load`. -/
def current_dl_load (st : CellState) : Option ℚ :=
  if st.max_dl_prb = 0 then none else some ((allocated_dl_prb st : ℚ) / st.max_dl_prb)

/-- `current_ul_load` property (lines 100-102), unguarded like
`current_load`. -/
def current_ul_load (st : CellState) : Option ℚ :=
  if st.max_ul_prb = 0 then none else some ((allocated_ul_prb st : ℚ) / st.max_ul_prb)

/-- The DL load ratio recomputed inside `to_json` (line 489), the same
unguarded division. -/
def to_json_current_dl_load (st : CellState) : Option ℚ :=
  if st.max_dl_prb = 0 then none else some ((allocated_dl_prb st : ℚ) / st.max_dl_prb)

/-- The UL load ratio recomputed inside `to_json` (line 490). -/
def to_json_current_ul_load (st : CellState) : Option ℚ :=
  if st.max_ul_prb = 0 then none else some ((allocated_ul_prb st : ℚ) / st.max_ul_prb)

/-- Guarded dict removal, mirroring `if k in d: del d[k]`
(lines 458-459 and 464-465 wrap each `del` in a membership test). -/
def dictRemove {α : Type} (l : List (Nat × α)) (k : Nat) : List (Nat × α) :=
  if l.any (fun p => p.1 == k) then l.eraseP (fun p => p.1 == k) else l

/-- Guarded removal from the connected-UE key list. -/
def listRemove (l : List Nat) (k : Nat) : List Nat :=
  if k ∈ l then l.erase k else l

/-- `deregister_ue` (lines 457-468): independently guarded removal of the
allocation entry and of the connected-set membership; everything else in
the cell is untouched. -/
def deregister_ue (st : CellState) (i : Nat) : CellState :=
  { st with
    prb_ue_allocation_dict := dictRemove st.prb_ue_allocation_dict i
    connected_ue_list := listRemove st.connected_ue_list i }

/-- The two Python faults that `allocate_prb` can raise before finishing. -/
inductive PyFault where
  /-- `NameError`: line 313 evaluates `collections.defaultdict`, but
  `collections` is never imported in `cell.py` (lines 1-3 import only
  `math`, `settings` and two `utils` names). -/
  | nameError_collections : PyFault
  /-- `AttributeError`: lines 301 and 423 assign to
  `self.allocated_dl_prb`, which is a read-only `@property`
  (lines 64-71), so the attribute assignment is rejected. -/
  | attributeError_allocated_dl_prb : PyFault
deriving DecidableEq, Repr

/-- Execution of `allocate_prb` on a cell state (lines 269-423): reset the
allocation entries of connected UEs (lines 272-275), persist the two
observability maps (lines 296-298; the Stage-1 demands `reqs` and the
per-UE throughput `tput` are inputs because the throughput model lives in
`utils`), then fault: with no demand, line 301 assigns to the read-only
property `allocated_dl_prb`; otherwise line 313 hits the missing
`collections` import.  No execution path reaches the commit. -/
def allocate_prb_run (reqs : List UEReq) (tput : Nat → ℚ) (st : CellState) :
    Except PyFault CellState :=
  let st1 := { st with
    prb_ue_allocation_dict := st.prb_ue_allocation_dict.map
      (fun p : Nat × PrbPair =>
        if p.1 ∈ st.connected_ue_list then (p.1, PrbPair.mk 0 0) else p) }
  let st2 := { st1 with
    dl_total_prb_demand := reqs.map (fun r : UEReq => (r.imsi, r.want))
    dl_throughput_per_prb_map := reqs.map (fun r : UEReq => (r.imsi, tput r.imsi)) }
  if reqs.isEmpty then
    Except.error PyFault.attributeError_allocated_dl_prb
  else
    have _ := st2
    Except.error PyFault.nameError_collections

/-! ### MCS selection -/

/-- The scan of lines 149-157: walk the MCS table in order, remembering
the last index whose spectral efficiency is within the CQI-derived limit,
stopping at the first that exceeds it; the accumulator starts at 0
(line 149). -/
def scanMCS : List (Nat × ℚ) → ℚ → Nat → Nat
  | [], _, acc => acc
  | e :: rest, lim, acc => if e.2 ≤ lim then scanMCS rest lim e.1 else acc

/-- `select_ue_mcs` for one UE (lines 138-166): reset the selection to the
sentinel `(-1, none)` (lines 140-141), leave it unset when the CQI is 0 or
has no table entry (lines 142-146), otherwise scan the MCS table and
install the scanned index together with the table entry for that index
(lines 148-166).  Both tables come from `settings`, outside this
repository; they are parameters here, with the spec's ordering assumptions
stated on the theorems. -/
def select_mcs (mcsTable : List (Nat × ℚ)) (cqiTable : List (Nat × ℚ)) (cqi : Nat) :
    Int × Option (Nat × ℚ) :=
  match cqiTable.find? (fun p => p.1 == cqi) with
  | none => (-1, none)
  | some entry =>
    if cqi = 0 then (-1, none)
    else
      let idx := scanMCS mcsTable entry.2 0
      ((idx : Int), mcsTable.find? (fun p => p.1 == idx))

/-! ### Deregistration lemmas -/

theorem dictRemove_no_key {α : Type} : ∀ (l : List (Nat × α)) (k : Nat),
    ((l.map (·.1)).Nodup) → ∀ p ∈ dictRemove l k, p.1 ≠ k := by
  intro l
  induction l with
  | nil =>
    intro k _ p hp
    unfold dictRemove at hp
    simp at hp
  | cons a t ih =>
    intro k hn p hp
    simp only [List.map_cons, List.nodup_cons] at hn
    by_cases hak : a.1 = k
    · have hany : ((a :: t).any (fun p => p.1 == k)) = true := by
        simp [List.any_cons, hak]
      unfold dictRemove at hp
      rw [if_pos hany, List.eraseP_cons_of_pos (by simpa using hak)] at hp
      intro hpk
      exact hn.1 (hak ▸ hpk ▸ (List.mem_map.mpr ⟨p, hp, rfl⟩))
    · by_cases hany : t.any (fun p => p.1 == k) = true
      · have hany2 : ((a :: t).any (fun p => p.1 == k)) = true := by
          simp only [List.any_cons, hany, Bool.or_true]
        unfold dictRemove at hp
        rw [if_pos hany2, List.eraseP_cons_of_neg (by simpa using hak)] at hp
        rcases List.mem_cons.mp hp with h | h
        · subst h
          exact hak
        · have hmem : p ∈ dictRemove t k := by
            unfold dictRemove
            rwa [if_pos hany]
          exact ih k hn.2 p hmem
      · have hanyf : t.any (fun p => p.1 == k) = false := by
          cases h2 : t.any (fun p => p.1 == k) with
          | false => rfl
          | true => exact absurd h2 hany
        have hany2 : ((a :: t).any (fun p => p.1 == k)) = false := by
          simp only [List.any_cons, hanyf, Bool.or_false]
          simpa using hak
        unfold dictRemove at hp
        rw [if_neg (by rw [hany2]; exact Bool.false_ne_true)] at hp
        rcases List.mem_cons.mp hp with h | h
        · subst h
          exact hak
        · have hfalse := List.any_eq_false.mp hanyf p h
          simpa using hfalse

theorem dictRemove_idem {α : Type} (l : List (Nat × α)) (k : Nat)
    (hn : (l.map (·.1)).Nodup) :
    dictRemove (dictRemove l k) k = dictRemove l k := by
  have h := dictRemove_no_key l k hn
  have hany : ((dictRemove l k).any (fun p => p.1 == k)) = false := by
    apply List.any_eq_false.mpr
    intro p hp
    simpa using h p hp
  set m := dictRemove l k with hm
  unfold dictRemove
  rw [if_neg (by rw [hany]; exact Bool.false_ne_true)]

theorem listRemove_not_mem (l : List Nat) (k : Nat) (hn : l.Nodup) :
    k ∉ listRemove l k := by
  unfold listRemove
  by_cases h : k ∈ l
  · rw [if_pos h]
    intro hmem
    exact (((List.Nodup.mem_erase_iff hn).mp hmem).1) rfl
  · rw [if_neg h]
    exact h

theorem listRemove_idem (l : List Nat) (k : Nat) (hn : l.Nodup) :
    listRemove (listRemove l k) k = listRemove l k := by
  have h := listRemove_not_mem l k hn
  set m := listRemove l k with hm
  unfold listRemove
  rw [if_neg h]

/-! ### MCS-selection lemmas -/

theorem scanMCS_eq_getLastD : ∀ (tbl : List (Nat × ℚ)) (lim : ℚ) (acc : Nat),
    scanMCS tbl lim acc
      = ((tbl.takeWhile (fun p => decide (p.2 ≤ lim))).map (·.1)).getLastD acc := by
  intro tbl
  induction tbl with
  | nil => intro lim acc; rfl
  | cons e rest ih =>
    intro lim acc
    by_cases he : e.2 ≤ lim
    · rw [scanMCS, if_pos he, ih lim e.1,
        List.takeWhile_cons_of_pos (by simpa using he), List.map_cons, List.getLastD_cons]
    · rw [scanMCS, if_neg he, List.takeWhile_cons_of_neg (by simpa using he)]
      rfl

theorem filter_eq_takeWhile_of_sorted (lim : ℚ) : ∀ (tbl : List (Nat × ℚ)),
    tbl.Pairwise (fun a b => a.2 ≤ b.2) →
    tbl.filter (fun p => decide (p.2 ≤ lim)) = tbl.takeWhile (fun p => decide (p.2 ≤ lim)) := by
  intro tbl
  induction tbl with
  | nil => intro _; rfl
  | cons e rest ih =>
    intro hs
    have hs2 := List.pairwise_cons.mp hs
    by_cases he : e.2 ≤ lim
    · rw [List.filter_cons_of_pos (by simpa using he),
        List.takeWhile_cons_of_pos (by simpa using he), ih hs2.2]
    · rw [List.filter_cons_of_neg (by simpa using he),
        List.takeWhile_cons_of_neg (by simpa using he)]
      apply List.filter_eq_nil_iff.mpr
      intro q hq
      simp only [decide_eq_true_eq]
      intro hqle
      exact he (le_trans (hs2.1 q hq) hqle)

theorem getLastD_mem : ∀ (K : List Nat) (d : Nat), K ≠ [] → K.getLastD d ∈ K := by
  intro K
  induction K with
  | nil => intro d h; exact absurd rfl h
  | cons a K ih =>
    intro d _
    rw [List.getLastD_cons]
    cases K with
    | nil => exact List.mem_cons_self a []
    | cons b K2 =>
      exact List.mem_cons_of_mem a (ih a (by simp))

theorem getLastD_max : ∀ (K : List Nat), K.Pairwise (· < ·) →
    ∀ (d : Nat), ∀ k ∈ K, k ≤ K.getLastD d := by
  intro K
  induction K with
  | nil => intro _ d k hk; cases hk
  | cons a K ih =>
    intro hK d k hk
    have hK2 := List.pairwise_cons.mp hK
    rw [List.getLastD_cons]
    rcases List.mem_cons.mp hk with h | h
    · subst h
      cases K with
      | nil => exact Nat.le_refl k
      | cons b K2 =>
        have hmem := getLastD_mem (b :: K2) k (by simp)
        exact Nat.le_of_lt (hK2.1 _ hmem)
    · exact ih hK2.2 a k h

theorem select_mcs_unset (mcsTable cqiTable : List (Nat × ℚ)) (cqi : Nat)
    (h : cqi = 0 ∨ cqiTable.find? (fun p => p.1 == cqi) = none) :
    select_mcs mcsTable cqiTable cqi = (-1, none) := by
  unfold select_mcs
  rcases h with h | h
  · cases hf : cqiTable.find? (fun p => p.1 == cqi) with
    | none => rfl
    | some entry =>
      dsimp only
      rw [if_pos h]
  · rw [h]

theorem select_mcs_eq (mcsTable cqiTable : List (Nat × ℚ)) (cqi : Nat)
    (entry : Nat × ℚ) (h1 : cqiTable.find? (fun p => p.1 == cqi) = some entry)
    (h2 : cqi ≠ 0) :
    select_mcs mcsTable cqiTable cqi
      = ((scanMCS mcsTable entry.2 0 : Int),
          mcsTable.find? (fun p => p.1 == scanMCS mcsTable entry.2 0)) := by
  unfold select_mcs
  rw [h1]
  dsimp only
  rw [if_neg h2]

/-- When some MCS entry is within the CQI-derived limit, the scan returns
the highest qualifying index (tables sorted by key and by efficiency). -/
theorem scanMCS_max (mcsTable : List (Nat × ℚ)) (lim : ℚ)
    (hkeys : (mcsTable.map (·.1)).Pairwise (· < ·))
    (heffs : (mcsTable.map (·.2)).Pairwise (· ≤ ·))
    (hqual : (mcsTable.filter (fun p => decide (p.2 ≤ lim))) ≠ []) :
    (∃ p ∈ mcsTable, p.1 = scanMCS mcsTable lim 0 ∧ p.2 ≤ lim)
      ∧ ∀ q ∈ mcsTable, q.2 ≤ lim → q.1 ≤ scanMCS mcsTable lim 0 := by
  have heffs2 : mcsTable.Pairwise (fun a b => a.2 ≤ b.2) := by
    rwa [List.pairwise_map] at heffs
  have hf := filter_eq_takeWhile_of_sorted lim mcsTable heffs2
  have hscan := scanMCS_eq_getLastD mcsTable lim 0
  rw [← hf] at hscan
  set qual := mcsTable.filter (fun p => decide (p.2 ≤ lim)) with hqualdef
  have hKne : (qual.map (·.1)) ≠ [] := by
    intro hmapnil
    exact hqual (List.map_eq_nil_iff.mp hmapnil)
  have hKsorted : (qual.map (·.1)).Pairwise (· < ·) := by
    have hsub : qual.Sublist mcsTable := List.filter_sublist mcsTable
    exact hkeys.sublist (hsub.map (·.1))
  constructor
  · have hmem := getLastD_mem (qual.map (·.1)) 0 hKne
    rw [← hscan] at hmem
    rcases List.mem_map.mp hmem with ⟨p, hp, hpk⟩
    have hpm := List.mem_filter.mp hp
    exact ⟨p, hpm.1, hpk, by simpa using hpm.2⟩
  · intro q hq hqle
    have hqqual : q ∈ qual := by
      rw [hqualdef]
      exact List.mem_filter.mpr ⟨hq, by simpa using hqle⟩
    have hqk : q.1 ∈ qual.map (·.1) := List.mem_map.mpr ⟨q, hqqual, rfl⟩
    have := getLastD_max (qual.map (·.1)) hKsorted 0 q.1 hqk
    rwa [← hscan] at this

/-- When no MCS entry qualifies, the scan keeps its initial accumulator 0
(line 149): the code falls back to MCS index 0, not to the unset
sentinel. -/
theorem scanMCS_none (mcsTable : List (Nat × ℚ)) (lim : ℚ)
    (h : ∀ p ∈ mcsTable, lim < p.2) :
    scanMCS mcsTable lim 0 = 0 := by
  cases mcsTable with
  | nil => rfl
  | cons e rest =>
    rw [scanMCS, if_neg (not_le_of_lt (h e (List.mem_cons_self e rest)))]

/-- The committed allocation entry of one UE after the pass: downlink from
Stages 2-4, uplink left at the reset value 0 (lines 273-275 reset both
directions, the commit at line 421 writes only `downlink`; nothing in
`allocate_prb` ever writes a nonzero uplink count). -/
def finalAllocPair (budget : Nat) (weights : List (Nat × ℚ)) (cap : Option Nat)
    (reqs : List UEReq) (i : Nat) : PrbPair :=
  ⟨finalAlloc budget weights cap reqs i, 0⟩

/-- A small two-UE cell used to instantiate the deregistration theorem. -/
def exSt8 : CellState :=
  ⟨10, 8, 2, [(1, ⟨3, 0⟩), (2, ⟨2, 0⟩)], [1, 2], [(1, 5)], [(1, 3)], [(1, 2)],
    [(0, 1)], none⟩

/-- A cell configured with zero PRB maxima, exercising the load ratios. -/
def exSt9 : CellState :=
  ⟨0, 0, 0, [(1, ⟨3, 1⟩)], [1], [], [], [], [(0, 1)], none⟩

/-- A one-UE cell whose observability maps mention the UE. -/
def exSt10 : CellState :=
  ⟨10, 8, 2, [(7, ⟨3, 0⟩)], [7], [(7, 5)], [(7, 3)], [(7, 2)], [(0, 1)], none⟩

/-! ### The claims -/

/-- C1: the claim that `Cell.allocate_prb` (and hence `Cell.step`)
completes without raising fails on the code: every execution faults before
the commit.  With no demand records the early exit at line 301 assigns to
`allocated_dl_prb`, a read-only `@property` (lines 64-71), raising
`AttributeError`; with demand present the per-slice grouping at line 313
evaluates `collections.defaultdict` with `collections` never imported,
raising `NameError`.  The commit (line 423) is unreachable. -/
theorem C1_allocate_prb_always_faults (reqs : List UEReq) (tput : Nat → ℚ)
    (st : CellState) :
    allocate_prb_run reqs tput st
      = Except.error (if reqs.isEmpty then PyFault.attributeError_allocated_dl_prb
          else PyFault.nameError_collections) := by
  cases reqs with
  | nil => rfl
  | cons r t => rfl

/-- C2: over every connected-UE set, the downlink PRBs committed by the
allocation pass sum to at most `max_dl_prb` — for every weight mapping
(all-zero weights included) and demand profile (zero demand included) —
and the uplink column is always 0 (uplink allocation unimplemented). -/
theorem C2_no_overallocation (budget : Nat) (weights : List (Nat × ℚ)) (cap : Option Nat)
    (reqs : List UEReq) (connected : List Nat)
    (hreq : (reqs.map (·.imsi)).Nodup) (hw : (weights.map (·.1)).Nodup)
    (hconn : connected.Nodup) :
    (connected.map (fun i => (finalAllocPair budget weights cap reqs i).downlink)).sum ≤ budget
      ∧ (connected.map (fun i => (finalAllocPair budget weights cap reqs i).uplink)).sum = 0 := by
  constructor
  · have hle := sum_le_of_zero_off (fun i => finalAlloc budget weights cap reqs i)
      connected (reqs.map (·.imsi)) hconn
      (fun i hi => finalAlloc_not_mem budget weights cap reqs i hi)
    have hsum : ((reqs.map (·.imsi)).map (fun i => finalAlloc budget weights cap reqs i)).sum
        = (reqs.map (fun r => finalAlloc budget weights cap reqs r.imsi)).sum := by
      rw [List.map_map]
      rfl
    have hfin := finalAlloc_sum_le budget weights cap reqs hreq hw
    have hshape : (connected.map (fun i => (finalAllocPair budget weights cap reqs i).downlink))
        = connected.map (fun i => finalAlloc budget weights cap reqs i) := rfl
    rw [hshape]
    omega
  · have hshape : (connected.map (fun i => (finalAllocPair budget weights cap reqs i).uplink))
        = connected.map (fun _ => 0) := rfl
    rw [hshape]
    simp

/-- C2 witness: a three-UE, two-slice cell with budget 10. -/
theorem C2_witness :
    (([0, 1, 2, 3] : List Nat).map (fun i => (finalAllocPair 10 [(0, 6/10), (1, 4/10)] none
        [⟨0, 0, 7⟩, ⟨1, 0, 4⟩, ⟨2, 1, 1⟩] i).downlink)).sum ≤ 10
      ∧ (([0, 1, 2, 3] : List Nat).map (fun i => (finalAllocPair 10 [(0, 6/10), (1, 4/10)] none
        [⟨0, 0, 7⟩, ⟨1, 0, 4⟩, ⟨2, 1, 1⟩] i).uplink)).sum = 0 :=
  C2_no_overallocation 10 [(0, 6/10), (1, 4/10)] none
    [⟨0, 0, 7⟩, ⟨1, 0, 4⟩, ⟨2, 1, 1⟩] [0, 1, 2, 3] (by decide) (by decide) (by decide)

/-- C3: in an oversubscribed slice (total desired demand at least the
slice's budget `B > 0`) the floor-plus-largest-remainder pass allocates
exactly `B` PRBs in total, and no UE receives more than its own desired
demand — a UE already at its desired demand is skipped by the remainder
pass (`handOut`) and the extra PRB goes to the next largest remainder. -/
theorem C3_oversubscribed_exact (B : Nat) (ues : List (Nat × Nat))
    (hB : 0 < B) (hT : B ≤ (ues.map (·.2)).sum) :
    ((sliceAlloc B ues).map (·.2)).sum = B
      ∧ ∀ p ∈ sliceAlloc B ues, ∃ q ∈ ues, q.1 = p.1 ∧ p.2 ≤ q.2 :=
  ⟨sliceAlloc_sum_eq B ues hB hT, sliceAlloc_mem_le B ues⟩

/-- C3 witness: budget 5, desired demands 4 and 3 (total 7 > 5). -/
theorem C3_witness :
    0 < 5 ∧ 5 ≤ ((([(1, 4), (2, 3)] : List (Nat × Nat)).map (·.2)).sum)
      ∧ ((sliceAlloc 5 [(1, 4), (2, 3)]).map (·.2)).sum = 5 :=
  ⟨by decide, by decide,
    (C3_oversubscribed_exact 5 [(1, 4), (2, 3)] (by decide) (by decide)).1⟩

/-- C4 counterexample: with all three configured weights equal to 0 and
`max_dl_prb = 10`, the Stage-2 partition hands out one PRB per slice and
stops — the single pass has no wrap-around and the all-zero mapping
re-normalizes (by the `or 1.0` fallback) to total weight 0, not 1 — so
the budgets sum to 3, not 10, falsifying the claim's all-zero edge case. -/
theorem C4_counterexample :
    ((sliceBudgets 10 (normWeights [(0, 0), (1, 0), (2, 0)])).map (·.2)).sum = 3
      ∧ ((sliceBudgets 10 (normWeights [(0, 0), (1, 0), (2, 0)])).map (·.2)).sum ≠ 10 := by
  have h : ((sliceBudgets 10 (normWeights [(0, 0), (1, 0), (2, 0)])).map (·.2)).sum = 3 := by
    norm_num [finalAlloc, ueAlloc3, globalLeftover, roomsList, sliceBudgets, stage2Base,
      stage2Leftover, stage2Rems, stage2Winners, normWeights, sliceAlloc, sliceLeftover,
      uesInSlice, desiredOf, firstOcc, firstOccAux, lookupD, List.find?, sliceEntries,
      mkEntry, shareQ, fracOf, List.insertionSort, List.orderedInsert, handOut, wGE, entryGE]
  exact ⟨h, by rw [h]; omega⟩

/-- C4 (amended): the Stage-2 partition sums exactly to `max_dl_prb`
whenever at least one clamped weight is positive (re-normalization then
makes the weights sum to 1); the empty/absent mapping falls back to
`{eMBB: 1.0}` and is covered.  In the all-zero edge case the partition
instead sums to `min(number of slices, max_dl_prb)` — see the
counterexample. -/
theorem C4_partition_sums_to_budget (budget : Nat) (weights : List (Nat × ℚ))
    (hkeys : (weights.map (·.1)).Nodup)
    (hpos : weights = [] ∨ 0 < (weights.map (fun p => max 0 p.2)).sum) :
    ((sliceBudgets budget (normWeights weights)).map (·.2)).sum = budget := by
  apply sliceBudgets_sum_eq
  · exact normWeights_keys_nodup weights hkeys
  · exact normWeights_nonneg weights
  · rw [normWeights_sum]
    rcases hpos with h | h
    · subst h
      norm_num
    · have hne : weights ≠ [] := by
        intro hnil
        subst hnil
        simp at h
      have hemp : weights.isEmpty = false := by
        cases weights with
        | nil => exact absurd rfl hne
        | cons a t => rfl
      rw [if_neg (by rw [hemp]; simp; exact ne_of_gt h)]
  · unfold normWeights
    by_cases he : weights.isEmpty
    · rw [if_pos he]
      simp
    · rw [if_neg he]
      intro hnil
      rcases List.map_eq_nil_iff.mp hnil with h2
      rw [h2] at he
      exact he rfl

/-- C4 witness: the default weight mapping 0.6 / 0.3 / 0.1 partitions a
budget of 10 exactly. -/
theorem C4_witness :
    ((sliceBudgets 10 (normWeights [(0, 6/10), (1, 3/10), (2, 1/10)])).map (·.2)).sum = 10 :=
  C4_partition_sums_to_budget 10 [(0, 6/10), (1, 3/10), (2, 1/10)] (by decide)
    (Or.inr (by norm_num))

/-- C5 counterexample: with the (key- and efficiency-sorted) MCS table
`[(0, 2), (1, 4)]` and a CQI whose derived efficiency is 1 — so no MCS
qualifies — `select_ue_mcs` installs MCS index 0 with its parameters,
instead of keeping the unset sentinel `(-1, absent)` as the claim says. -/
theorem C5_counterexample :
    (∀ p ∈ ([(0, 2), (1, 4)] : List (Nat × ℚ)), (1 : ℚ) < p.2)
      ∧ select_mcs [(0, 2), (1, 4)] [(5, 1)] 5 = ((0 : Int), some (0, (2 : ℚ)))
      ∧ select_mcs [(0, 2), (1, 4)] [(5, 1)] 5 ≠ ((-1 : Int), none) := by
  refine ⟨by decide, by decide, by decide⟩

/-- C5 (amended): `select_ue_mcs` first resets the selection to the unset
sentinel; a CQI of 0 or one absent from the CQI table leaves it unset;
otherwise, when at least one MCS qualifies, the highest-index MCS whose
spectral efficiency does not exceed the CQI-derived limit is selected
together with its table entry; when no MCS qualifies, the code selects
MCS index 0 (the scan's initial accumulator, line 149) and installs
index 0's table entry — it does not keep the unset selection. -/
theorem C5_select_mcs (mcsTable cqiTable : List (Nat × ℚ)) (cqi : Nat)
    (hkeys : (mcsTable.map (·.1)).Pairwise (· < ·))
    (heffs : (mcsTable.map (·.2)).Pairwise (· ≤ ·)) :
    ((cqi = 0 ∨ cqiTable.find? (fun p => p.1 == cqi) = none) →
      select_mcs mcsTable cqiTable cqi = (-1, none))
    ∧ (∀ entry, cqiTable.find? (fun p => p.1 == cqi) = some entry → cqi ≠ 0 →
        ((∃ p ∈ mcsTable, p.2 ≤ entry.2) →
          ∃ p ∈ mcsTable, (p.1 : Int) = (select_mcs mcsTable cqiTable cqi).1
            ∧ p.2 ≤ entry.2
            ∧ (select_mcs mcsTable cqiTable cqi).2 = some p
            ∧ ∀ q ∈ mcsTable, q.2 ≤ entry.2 → q.1 ≤ p.1)
        ∧ ((∀ p ∈ mcsTable, entry.2 < p.2) →
          (select_mcs mcsTable cqiTable cqi).1 = 0
            ∧ (select_mcs mcsTable cqiTable cqi).2
                = mcsTable.find? (fun p => p.1 == 0))) := by
  constructor
  · exact select_mcs_unset mcsTable cqiTable cqi
  · intro entry hfind hcq
    rw [select_mcs_eq mcsTable cqiTable cqi entry hfind hcq]
    constructor
    · intro hq
      have hqual : (mcsTable.filter (fun p => decide (p.2 ≤ entry.2))) ≠ [] := by
        rcases hq with ⟨p, hp, hple⟩
        intro hnil
        have : p ∈ mcsTable.filter (fun p => decide (p.2 ≤ entry.2)) :=
          List.mem_filter.mpr ⟨hp, by simpa using hple⟩
        rw [hnil] at this
        cases this
      rcases scanMCS_max mcsTable entry.2 hkeys heffs hqual with ⟨⟨p, hp, hpk, hple⟩, hmax⟩
      have hnodup : (mcsTable.map (·.1)).Nodup := hkeys.imp (fun h => Nat.ne_of_lt h)
      refine ⟨p, hp, by rw [hpk], hple, ?_, ?_⟩
      · show mcsTable.find? (fun q => q.1 == scanMCS mcsTable entry.2 0) = some p
        rw [← hpk]
        exact find?_key_of_mem Prod.fst mcsTable hnodup p hp
      · intro q hq hqle
        rw [hpk]
        exact hmax q hq hqle
    · intro hnone
      have hscan := scanMCS_none mcsTable entry.2 hnone
      rw [hscan]
      exact ⟨rfl, rfl⟩

/-- C5 witness: CQI-derived efficiency 3/2 over the table
`[(0, 1), (1, 2)]` qualifies only index 0, which is selected together
with its entry. -/
theorem C5_witness :
    ∃ p ∈ ([(0, 1), (1, 2)] : List (Nat × ℚ)),
      (p.1 : Int) = (select_mcs [(0, 1), (1, 2)] [(3, 1)] 3).1
        ∧ p.2 ≤ (((3 : Nat), (1 : ℚ)) : Nat × ℚ).2
        ∧ (select_mcs [(0, 1), (1, 2)] [(3, 1)] 3).2 = some p
        ∧ ∀ q ∈ ([(0, 1), (1, 2)] : List (Nat × ℚ)),
            q.2 ≤ (((3 : Nat), (1 : ℚ)) : Nat × ℚ).2 → q.1 ≤ p.1 :=
  ((C5_select_mcs [(0, 1), (1, 2)] [(3, 1)] 3 (by decide) (by decide)).2
    (3, 1) rfl (by decide)).1 ⟨(0, 1), List.mem_cons_self _ _, by norm_num⟩

/-- C6: with a configured per-UE cap every UE's committed downlink stays
at or below the cap through all four stages, leftover redistribution
included. -/
theorem C6_cap_respect (budget : Nat) (weights : List (Nat × ℚ)) (c : Nat)
    (reqs : List UEReq) (hreq : (reqs.map (·.imsi)).Nodup) (i : Nat) :
    finalAlloc budget weights (some c) reqs i ≤ c :=
  finalAlloc_le_cap budget weights c reqs hreq i

/-- C6 witness — the spec's Scenario C: cap 5, one UE wanting 20 in a
slice with budget 50: the UE receives exactly 5 and the 45 leftover PRBs
are dropped (total committed = 5). -/
theorem C6_witness :
    finalAlloc 50 [(0, 1)] (some 5) [⟨1, 0, 20⟩] 1 ≤ 5
      ∧ finalAlloc 50 [(0, 1)] (some 5) [⟨1, 0, 20⟩] 1 = 5
      ∧ (([⟨1, 0, 20⟩] : List UEReq).map
          (fun r => finalAlloc 50 [(0, 1)] (some 5) [⟨1, 0, 20⟩] r.imsi)).sum = 5 :=
  have h2 : finalAlloc 50 [(0, 1)] (some 5) [⟨1, 0, 20⟩] 1 = 5 := by
    norm_num [finalAlloc, ueAlloc3, globalLeftover, roomsList, sliceBudgets, stage2Base,
      stage2Leftover, stage2Rems, stage2Winners, normWeights, sliceAlloc, sliceLeftover,
      uesInSlice, desiredOf, firstOcc, firstOccAux, lookupD, List.find?, sliceEntries,
      mkEntry, shareQ, fracOf, List.insertionSort, List.orderedInsert, handOut, wGE, entryGE]
  ⟨C6_cap_respect 50 [(0, 1)] 5 [⟨1, 0, 20⟩] (by decide) 1, h2, by simpa using h2⟩

/-- C8: deregistering a UE twice yields exactly the same cell state as
deregistering it once — both removals are membership-guarded, so the
second call is a no-op (the embedded function is total: no exception). -/
theorem C8_deregister_idempotent (st : CellState) (i : Nat)
    (halloc : (st.prb_ue_allocation_dict.map (·.1)).Nodup)
    (hconn : st.connected_ue_list.Nodup) :
    deregister_ue (deregister_ue st i) i = deregister_ue st i := by
  unfold deregister_ue
  dsimp only
  rw [dictRemove_idem _ _ halloc, listRemove_idem _ _ hconn]

/-- C8 witness: a concrete two-UE cell. -/
theorem C8_witness :
    deregister_ue (deregister_ue exSt8 1) 1 = deregister_ue exSt8 1 :=
  C8_deregister_idempotent exSt8 1 (by decide) (by decide)

/-- C9 counterexample: with `max_prb = max_dl_prb = max_ul_prb = 0` the
load computations are the embedded fault value `none`
(`ZeroDivisionError` in Python), not the claimed defined value 0 — the
divisions at lines 92-102 and 489-491 have no zero-denominator guard. -/
theorem C9_counterexample :
    current_load exSt9 = none ∧ current_load exSt9 ≠ some 0
      ∧ current_dl_load exSt9 = none ∧ current_ul_load exSt9 = none
      ∧ to_json_current_dl_load exSt9 = none ∧ to_json_current_ul_load exSt9 = none := by
  refine ⟨rfl, by decide, rfl, rfl, rfl, rfl⟩

/-- C9 (amended): `current_load`, `current_dl_load` and `current_ul_load`
(and the ratios recomputed in `to_json`) are unguarded divisions: they
yield the exact ratio when the corresponding maximum is nonzero and raise
an arithmetic fault (embedded as `none`) when it is zero. -/
theorem C9_loads (st : CellState) :
    (st.max_prb = 0 → current_load st = none)
    ∧ (st.max_prb ≠ 0 → current_load st = some ((allocated_prb st : ℚ) / st.max_prb))
    ∧ (st.max_dl_prb = 0 → current_dl_load st = none)
    ∧ (st.max_dl_prb ≠ 0 →
        current_dl_load st = some ((allocated_dl_prb st : ℚ) / st.max_dl_prb))
    ∧ (st.max_ul_prb = 0 → current_ul_load st = none)
    ∧ (st.max_ul_prb ≠ 0 →
        current_ul_load st = some ((allocated_ul_prb st : ℚ) / st.max_ul_prb))
    ∧ to_json_current_dl_load st = current_dl_load st
    ∧ to_json_current_ul_load st = current_ul_load st := by
  unfold current_load current_dl_load current_ul_load
    to_json_current_dl_load to_json_current_ul_load
  refine ⟨fun h => by rw [if_pos h], fun h => by rw [if_neg h],
    fun h => by rw [if_pos h], fun h => by rw [if_neg h],
    fun h => by rw [if_pos h], fun h => by rw [if_neg h], rfl, rfl⟩

/-- C9 witness: the zero-maxima cell faults on `current_load`. -/
theorem C9_witness : exSt9.max_prb = 0 ∧ current_load exSt9 = none :=
  ⟨rfl, (C9_loads exSt9).1 rfl⟩

/-- C10: `deregister_ue` removes the UE only from the allocation dict and
the connected set; the uplink-signal map and both observability maps keep
their entries unchanged (until the next `step` rebuilds them), so a
between-tick reader can observe a UE id in those maps that is no longer
connected. -/
theorem C10_deregister_frame (st : CellState) (i : Nat) :
    (deregister_ue st i).ue_uplink_signal_strength_dict = st.ue_uplink_signal_strength_dict
    ∧ (deregister_ue st i).dl_total_prb_demand = st.dl_total_prb_demand
    ∧ (deregister_ue st i).dl_throughput_per_prb_map = st.dl_throughput_per_prb_map
    ∧ (st.connected_ue_list.Nodup → i ∉ (deregister_ue st i).connected_ue_list) :=
  ⟨rfl, rfl, rfl, fun hn => listRemove_not_mem _ _ hn⟩

/-- C10 witness: after deregistering UE 7 its id is still in the demand
map, the throughput map and the signal map, but it is no longer
connected. -/
theorem C10_witness :
    (deregister_ue exSt10 7).dl_total_prb_demand = exSt10.dl_total_prb_demand
      ∧ 7 ∈ ((deregister_ue exSt10 7).dl_total_prb_demand.map (·.1))
      ∧ 7 ∉ (deregister_ue exSt10 7).connected_ue_list :=
  ⟨(C10_deregister_frame exSt10 7).2.1, by decide,
    (C10_deregister_frame exSt10 7).2.2.2 (by decide)⟩

end RanSim
